import Mathlib

/-!
Verification development for the ackermann unit scheduler.

The Python source (src/ackermann/kahn.py, src/ackermann/config.py,
src/ackermann/units/base.py) is embedded shallowly:

* Units are identified by natural numbers.  A `Univ` assigns to every id its
  relation lists (`after`, `before`, `belongs`, `contains`, `depends`), its
  `exclusive` flag and the classification of its action (empty / generator /
  async, setup result, whether setup raises StopInitException, whether the
  teardown step raises).
* Python `dict` (insertion ordered, unique keys) is modelled as an
  association list `Dict = List (Nat × List Nat)`; `defaultdict(set)`
  accesses that materialize an empty entry are modelled explicitly
  (`dmat`, `dAdd`), because the iterator's behaviour depends on which keys
  exist.  Python `set` values are modelled as duplicate-free lists in
  insertion order (CPython's set iteration order is unspecified; insertion
  order is the deterministic choice made here).
* Mutable state is passed explicitly; a Python function that can raise an
  uncaught exception is modelled as returning `Option`/a status value, with
  `none`/an error status standing for the propagated exception.
* `KahnIterator.__next__` recurses when an exclusive-group member is
  skipped; the Lean model `nextK` takes a fuel argument and reports
  `.fuelOut` when it runs out, which never happens for the concrete runs
  below and is harmless for soundness statements.
* For claim C5 (iterator copying) a second, reference-level model of the
  same Python code is given (`Store`, `KStateR`): `KahnIterator.copy` does
  `self.before.copy()` / `self.after.copy()`, a *shallow* dict copy whose
  values are the original `set` objects, so sets live in an explicit store
  shared between the copies.  The pure model `KState` cannot express this
  aliasing, the reference model exists only to settle that claim.
-/

/-! ## Association lists modelling Python dict -/

abbrev Dict := List (Nat × List Nat)

/-- Lookup of a key in a dict (first matching entry). -/
def dfind (d : Dict) (k : Nat) : Option (List Nat) :=
  match d with
  | [] => none
  | (k', v) :: rest => if k' = k then some v else dfind rest k

/-- Value of a key, the empty set when the key is absent. -/
def dget (d : Dict) (k : Nat) : List Nat :=
  (dfind d k).getD []

/-- Whether a key is present. -/
def dhas (d : Dict) (k : Nat) : Bool :=
  (dfind d k).isSome

/-- Python `d[k] = v`: update in place when the key exists (keeping its
position in insertion order), otherwise append a new entry at the end. -/
def dset (d : Dict) (k : Nat) (v : List Nat) : Dict :=
  match d with
  | [] => [(k, v)]
  | (k', v') :: rest => if k' = k then (k', v) :: rest else (k', v') :: dset rest k v

/-- Python `del d[k]` with the KeyError swallowed: remove the entry if present. -/
def ddel (d : Dict) (k : Nat) : Dict :=
  match d with
  | [] => []
  | (k', v') :: rest => if k' = k then rest else (k', v') :: ddel rest k

/-- A `defaultdict(set)` read access: materialize an empty entry for a
missing key (appended at the end, matching dict insertion order). -/
def dmat (d : Dict) (k : Nat) : Dict :=
  if dhas d k then d else d ++ [(k, [])]

/-- Python `d[k].add(v)` on a `defaultdict(set)`. -/
def dAdd (d : Dict) (k v : Nat) : Dict :=
  let s := dget d k
  if v ∈ s then dmat d k else dset (dmat d k) k (s ++ [v])

/-- Python `set(iterable)`: drop duplicates, keeping first occurrences. -/
def sdedup (l : List Nat) : List Nat :=
  l.foldl (fun acc x => if x ∈ acc then acc else acc ++ [x]) []

/-! ## Units and the iterator state -/

/-- The data of one registered unit, after `ConfigUnit.add_unit` has run:
its relation lists and the classification of its action that the engine
inspects.  `setupResult` is the value the setup phase returns/yields
(`none` meaning Python `None`), `setupStopInit` models the setup phase
raising `StopInitException`, `teardownRaises` models the teardown step
raising an exception other than `StopIteration`. -/
structure UnitD where
  after : List Nat := []
  before : List Nat := []
  belongs : List Nat := []
  contains : List Nat := []
  depends : List Nat := []
  exclusive : Bool := false
  isEmpty : Bool := true
  isGenerator : Bool := false
  isAsync : Bool := false
  setupResult : Option Nat := none
  setupStopInit : Bool := false
  teardownRaises : Bool := false
deriving DecidableEq

/-- The fixed universe of registered units, keyed by id. -/
abbrev Univ := Nat → UnitD

/-- State of `KahnIterator` (kahn.py lines 27-39): pending-dependency dict
`after`, produced list `lst`, ready deque `stack`, reverse dict `before`,
known-node set `nodes`. -/
structure KState where
  after : Dict
  lst : List Nat
  stack : List Nat
  before : Dict
  nodes : List Nat
deriving DecidableEq

/-- The state of `KahnIterator([])`. -/
def kEmpty : KState := ⟨[], [], [], [], []⟩

/-- Model of `KahnIterator.add_node` (kahn.py lines 52-85), transcribed line by line.
The guard `node not in self.lst` inside the two edge loops is constantly
true because of the early return and is dropped.  The set assignments on
lines 68 and 72 build Python sets, hence `sdedup`.  The cleanup loop's
`len(self.after[stack_node])` is a defaultdict access and materializes an
empty entry for every stacked node; `deque.remove` drops the first
occurrence of each collected node. -/
def addNode (U : Univ) (s : KState) (n : Nat) : KState :=
  if n ∈ s.lst then s else
  let bef1 := (U n).after.foldl
    (fun d u => if u ∈ s.nodes then dAdd d u n else d) s.before
  let aft1 := (U n).before.foldl
    (fun d u => if u ∈ s.nodes then dAdd d u n else d) s.after
  let aft2 := if (U n).after = [] then aft1 else
    dset aft1 n (sdedup ((U n).after.filter
      (fun x => decide (x ∈ s.nodes) && !decide (x ∈ s.lst))))
  let bef2 := if (U n).before = [] then bef1 else
    dset bef1 n (sdedup ((U n).before.filter (fun x => decide (x ∈ s.nodes))))
  let stk1 := if (U n).after = [] ∨ ∀ a ∈ dget aft2 n, a ∈ s.lst then
    s.stack ++ [n] else s.stack
  let nds := if n ∈ s.nodes then s.nodes else s.nodes ++ [n]
  let aft3 := stk1.foldl (fun d sn => dmat d sn) aft2
  let bad := stk1.filter (fun sn => !(dget aft3 sn).isEmpty)
  let stk2 := bad.foldl (fun st sn => st.erase sn) stk1
  { after := aft3, lst := s.lst, stack := stk2, before := bef2, nodes := nds }

/-- One step of the `remove_node` edge-cleanup loops (kahn.py lines 99-115):
`self.X[u].remove(n)` with the KeyError swallowed, then delete the entry
when it became empty.  A previously absent key is materialized and then
deleted again, so that case is the identity. -/
def delStep (d : Dict) (u n : Nat) : Dict :=
  let v := (dget d u).erase n
  if v.isEmpty then ddel d u else dset d u v

/-- One step of the `remove_node` rescan loop (kahn.py lines 133-140):
skip produced nodes, materialize the node's pending entry (defaultdict
access) and enqueue the node when the entry is empty. -/
def rescanStep (lst : List Nat) (p : Dict × List Nat) (m : Nat) : Dict × List Nat :=
  if m ∈ lst then p
  else
    let d := dmat p.1 m
    if (dget d m).isEmpty then (d, p.2 ++ [m]) else (d, p.2)

/-- Model of `KahnIterator.remove_node` (kahn.py lines 88-140).  `none` models an
uncaught exception: removing an already-produced node (line 97) or a node
not in `self.nodes` (`self.nodes.remove` on line 130 raises KeyError).
The rescan loop's `self.after[node]` access is a defaultdict access, so it
materializes entries and its `except KeyError` branch is dead. -/
def removeNode (U : Univ) (s : KState) (n : Nat) : Option KState :=
  if n ∈ s.lst then none else
  let bef1 := (U n).after.foldl (fun d u => delStep d u n) s.before
  let aft1 := (U n).before.foldl (fun d u => delStep d u n) s.after
  let aft2 := ddel aft1 n
  let bef2 := ddel bef1 n
  let stk1 := s.stack.erase n
  if n ∉ s.nodes then none else
  let nds := s.nodes.erase n
  let res := nds.foldl (rescanStep s.lst) (aft2, stk1)
  some { after := res.1, lst := s.lst, stack := res.2, before := bef2, nodes := nds }

/-- One releasing step of `__next__` (kahn.py lines 172-180) for popped
node `n` and successor `other`: erase `n` from the successor's pending set
(`self.after[other].remove`, KeyError swallowed, with the defaultdict
access materializing and the empty-check deleting absent entries), and
enqueue the successor when its pending set became empty. -/
def relStep (n : Nat) (p : Dict × List Nat) (other : Nat) : Dict × List Nat :=
  let v := (dget p.1 other).erase n
  if v.isEmpty then (ddel p.1 other, p.2 ++ [other])
  else (dset p.1 other v, p.2)

/-- The releasing phase of `__next__` for popped node `n`: materialize
`before[n]` (defaultdict access) and run `relStep` for each recorded
successor.  Takes the state whose `stack` is already the remaining
deque. -/
def popProcess (n : Nat) (s : KState) : KState :=
  let bef := dmat s.before n
  let res := (dget bef n).foldl (relStep n) (s.after, s.stack)
  { after := res.1, lst := s.lst, stack := res.2, before := bef, nodes := s.nodes }

/-- Exclusive-group arbitration check of `__next__` (kahn.py lines 183-196):
the popped node is silently skipped when it belongs to an exclusive group
one of whose members was already produced. -/
def exclSkip (U : Univ) (lst : List Nat) (n : Nat) : Bool :=
  (U n).belongs.any (fun p =>
    (U p).exclusive && lst.any (fun u => decide (p ∈ (U u).belongs)))

/-- Result of one `__next__` call: a produced node with the successor
state, exhaustion (`StopIteration`), a detected cycle (`CycleException`),
or fuel exhaustion (model artifact for the recursion in the Python code). -/
inductive NextRes where
  | yield (n : Nat) (s : KState)
  | done
  | cycle
  | fuelOut
deriving DecidableEq

/-- Model of `KahnIterator.__next__` (kahn.py lines 146-199).  The rescue pass on an
empty stack promotes every `after` entry whose recorded pending set is
empty (without checking whether its node was already produced) and deletes
those entries; if nothing was promoted while some pending set is non-empty
this is a cycle.  Skipping an exclusive-group member recurses.  The rescue
fall-through to the pop is modelled as a recursive call on the updated
state, which only costs one unit of fuel. -/
def nextK (U : Univ) : Nat → KState → NextRes
  | 0, _ => .fuelOut
  | fuel+1, s =>
    match s.stack with
    | n :: stk =>
      let s₂ := popProcess n { s with stack := stk }
      if exclSkip U s₂.lst n then nextK U fuel s₂
      else .yield n { s₂ with lst := s₂.lst ++ [n] }
    | [] =>
      if s.after.any (fun kv => !kv.2.isEmpty) then
        match (s.after.filter (fun kv => kv.2.isEmpty)).map Prod.fst with
        | [] => .cycle
        | p :: ps =>
          nextK U fuel
            { s with stack := p :: ps, after := (p :: ps).foldl ddel s.after }
      else .done

/-- The node of a yielding `__next__` call, `none` otherwise. -/
def yieldOf (U : Univ) (fuel : Nat) (s : KState) : Option Nat :=
  match nextK U fuel s with
  | .yield n _ => some n
  | _ => none

/-- The successor state of a yielding `__next__` call, the input state
otherwise. -/
def stateOf (U : Univ) (fuel : Nat) (s : KState) : KState :=
  match nextK U fuel s with
  | .yield _ t => t
  | _ => s

/-- Repeatedly call `__next__`, collecting the produced nodes and the
terminating result. -/
def drainFull (U : Univ) : Nat → KState → List Nat × NextRes
  | 0, _ => ([], .fuelOut)
  | fuel+1, s =>
    match nextK U (fuel+1) s with
    | .yield n s' =>
      let r := drainFull U fuel s'
      (n :: r.1, r.2)
    | r => ([], r)

/-! ## The execution engine (config.py, class Config) -/

/-- Python dict `active_units : unit -> instance`; `some u` stands for the
suspended generator instance produced by unit `u`, `none` for Python
`None` (empty / blacklisted / one-shot units). -/
abbrev AListI := List (Nat × Option Nat)

/-- Lookup in `active_units` (first matching entry). -/
def afind (a : AListI) (k : Nat) : Option (Option Nat) :=
  match a with
  | [] => none
  | (k', v) :: rest => if k' = k then some v else afind rest k

/-- Python `active_units[k] = v`. -/
def aset (a : AListI) (k : Nat) (v : Option Nat) : AListI :=
  match a with
  | [] => [(k, v)]
  | (k', v') :: rest => if k' = k then (k', v) :: rest else (k', v') :: aset rest k v

/-- Python `del active_units[k]` (entry present in all modelled paths). -/
def adel (a : AListI) (k : Nat) : AListI :=
  match a with
  | [] => []
  | (k', v') :: rest => if k' = k then rest else (k', v') :: adel rest k

/-- State of a `Config` engine (config.py lines 57-85): final action
`func` (identified by a number, only its presence matters), ordered target
list, blacklist (a Python list, duplicates possible), the unit iterator,
execution history `ran_units`, the `active_units` dict and the teardown
watermark `entry_point`.  The variable store and the signal dict are not
needed by any claim and are omitted. -/
structure CState where
  func : Option Nat := none
  targets : List Nat := []
  blacklisted : List Nat := []
  iter : KState := ⟨[], [], [], [], []⟩
  ranUnits : List Nat := []
  activeUnits : AListI := []
  entryPoint : Option Nat := none
deriving DecidableEq

/-- Model of `Config.blacklist_target` (config.py lines 297-305): append the target
and every unit it contains to the blacklist. -/
def blacklistTarget (U : Univ) (s : CState) (t : Nat) : CState :=
  { s with blacklisted := s.blacklisted ++ t :: (U t).contains }

/-- Model of `Config.add_target` (config.py lines 352-378).  The recursion over
`chain(target.depends, target.contains)` is bounded by fuel (the Python
code relies on the `target in self.targets` guard for termination).
`none` models an uncaught Python exception: either fuel exhaustion (model
artifact) or, faithfully, the `KeyError` that `KahnIterator.remove_node`
raises from `self.nodes.remove` when an exclusive sibling is not a known
node of the iterator — nothing in `add_target` catches it. -/
def addTarget (U : Univ) : Nat → CState → Nat → Bool → Option CState
  | 0, _, _, _ => none
  | fuel+1, s, t, force =>
    if t ∈ s.targets then some s
    else if t ∈ s.blacklisted then some s
    else if force || (U t).belongs.any (fun c => decide (c ∈ s.targets)) then do
      let s1 := { s with targets := s.targets ++ [t], iter := addNode U s.iter t }
      let s2 ← ((U t).depends ++ (U t).contains).foldlM
        (fun st d => addTarget U fuel st d force) s1
      (U t).belongs.foldlM
        (fun st c =>
          if (U c).exclusive then
            (U c).contains.foldlM
              (fun st2 o =>
                if o ≠ t then do
                  let it ← removeNode U st2.iter o
                  pure (blacklistTarget U { st2 with iter := it } o)
                else pure st2) st
          else pure st) s2
    else some s

/-- Outcome of `Config.init`: iterator exhausted (returns `None`), a
takeover value returned by some unit's setup, termination through
`StopInitException`, a propagated `CycleException`, or fuel exhaustion
(model artifact). -/
inductive InitOut where
  | finished
  | tookOver (r : Nat)
  | stopped (u : Nat)
  | cycleErr
  | fuelOut
deriving DecidableEq

/-- Model of `Config.init` (config.py lines 169-201).  Per yielded unit: a
blacklisted unit is recorded with no instance and no result; an empty unit
likewise; otherwise the setup phase runs — raising `StopInitException`
clears `func` and returns at once (the unit is not recorded), a generator
unit stores its suspended instance, and a non-`None` setup result is
returned as takeover after recording the unit. -/
def initC (U : Univ) : Nat → CState → CState × InitOut
  | 0, s => (s, .fuelOut)
  | fuel+1, s =>
    match nextK U (fuel+1) s.iter with
    | .cycle => (s, .cycleErr)
    | .fuelOut => (s, .fuelOut)
    | .done => (s, .finished)
    | .yield u it =>
      let s1 := { s with iter := it }
      if u ∈ s1.blacklisted then
        initC U fuel { s1 with activeUnits := aset s1.activeUnits u none,
                               ranUnits := s1.ranUnits ++ [u] }
      else if (U u).isEmpty then
        initC U fuel { s1 with activeUnits := aset s1.activeUnits u none,
                               ranUnits := s1.ranUnits ++ [u] }
      else if (U u).setupStopInit then
        ({ s1 with func := none }, .stopped u)
      else
        let inst : Option Nat := if (U u).isGenerator then some u else none
        let s2 := { s1 with activeUnits := aset s1.activeUnits u inst,
                            ranUnits := s1.ranUnits ++ [u] }
        match (U u).setupResult with
        | some r => (s2, .tookOver r)
        | none => initC U fuel s2

/-- How a `Config.exit` run ended: history exhausted, entry-point
watermark reached, `KeyError` from `active_units[unit]`, or an exception
propagated out of a unit's teardown step. -/
inductive ExitStop where
  | finished
  | hitEntry
  | keyError
  | raised
deriving DecidableEq

/-- Result of the `Config.exit` loop: what is left of the reversed
history, the final `active_units`, the units whose suspended instance was
resumed (in teardown order) and how the loop ended. -/
structure ExitRes where
  remaining : List Nat
  active : AListI
  events : List Nat
  status : ExitStop
deriving DecidableEq

/-- The `Config.exit` loop (config.py lines 203-223), processing the history
from its end (the argument is `ran_units` reversed).  Per popped unit:
look up its instance (`KeyError` if absent), stop before tearing down the
entry point, resume the instance once unless the unit is empty or the
instance is `None` — only `StopIteration` is caught, any other teardown
exception propagates and aborts the loop with `active_units` not yet
cleaned for that unit. -/
def exitAux (U : Univ) (ep : Option Nat) : List Nat → AListI → ExitRes
  | [], act => ⟨[], act, [], .finished⟩
  | u :: rest, act =>
    match afind act u with
    | none => ⟨rest, act, [], .keyError⟩
    | some inst =>
      if ep = some u then ⟨rest, act, [], .hitEntry⟩
      else if (U u).isEmpty || inst = none then
        exitAux U ep rest (adel act u)
      else if (U u).teardownRaises then ⟨rest, act, [], .raised⟩
      else
        let r := exitAux U ep rest (adel act u)
        ⟨r.remaining, r.active, u :: r.events, r.status⟩

/-- Model of `Config.exit` (config.py lines 203-223), as a state transformer
returning also the teardown events and the way the loop ended. -/
def exitC (U : Univ) (s : CState) : CState × List Nat × ExitStop :=
  let r := exitAux U s.entryPoint s.ranUnits.reverse s.activeUnits
  ({ s with ranUnits := r.remaining.reverse, activeUnits := r.active },
   r.events, r.status)

/-- Classification of the `func` argument of `ConfigUnit.__init__`
(config.py lines 522-536): `None`, an async generator function, a
coroutine function, a plain generator function, or an ordinary callable. -/
inductive FuncKind where
  | noFunc
  | asyncGen
  | coroutine
  | generator
  | plain
deriving DecidableEq

/-- Model of `ConfigUnit.__init__` (config.py lines 496-542) for a unit whose
relation arguments are already plain lists: classify `func` into
`is_async` / `is_generator` exactly as the `inspect` cascade does, and if
the unit is async append the event-loop takeover unit (id `aid`, the
global `ASYNC_UNIT`) to both `depends` and `after`.  The inert `conflicts`
list is not modelled. -/
def mkConfigUnit (aid : Nat) (kind : FuncKind)
    (contains belongs depends before after : List Nat)
    (exclusive : Bool) : UnitD :=
  let p : Bool × Bool :=
    match kind with
    | .noFunc => (false, false)
    | .asyncGen => (true, true)
    | .coroutine => (true, false)
    | .generator => (false, true)
    | .plain => (false, false)
  { contains := contains
    belongs := belongs
    depends := if p.1 then depends ++ [aid] else depends
    before := before
    after := if p.1 then after ++ [aid] else after
    exclusive := exclusive
    isEmpty := decide (kind = .noFunc)
    isGenerator := p.2
    isAsync := p.1 }

/-! ## Reference-level model of the iterator for `KahnIterator.copy`

In Python the pending-dependency dicts hold mutable `set` objects and
`copy` (kahn.py lines 41-50) copies the dicts *shallowly*, so the copy's
dict entries reference the very same set objects as the original's.  To
express this the sets live in an explicit `Store` (index = object
identity) and the dicts map keys to store indices.  The functions below
are the same kahn.py lines as `addNode` / `nextK` above, with every set
operation threaded through the store. -/

/-- The heap of Python set objects, indexed by allocation order. -/
abbrev Store := List (List Nat)

/-- A dict whose values are references to set objects in the store. -/
abbrev RDict := List (Nat × Nat)

/-- Lookup of a key's set reference. -/
def rfind (d : RDict) (k : Nat) : Option Nat :=
  match d with
  | [] => none
  | (k', v) :: rest => if k' = k then some v else rfind rest k

/-- Python `d[k] = r`: update in place or append. -/
def rset (d : RDict) (k r : Nat) : RDict :=
  match d with
  | [] => [(k, r)]
  | (k', v') :: rest => if k' = k then (k', r) :: rest else (k', v') :: rset rest k r

/-- Python `del d[k]` (if present). -/
def rdel (d : RDict) (k : Nat) : RDict :=
  match d with
  | [] => []
  | (k', v') :: rest => if k' = k then rest else (k', v') :: rdel rest k

/-- Contents of the set object behind a reference. -/
def sget (σ : Store) (r : Nat) : List Nat :=
  σ.getD r []

/-- Overwrite the set object behind a reference (in-place set mutation). -/
def supd (σ : Store) (r : Nat) (v : List Nat) : Store :=
  σ.set r v

/-- Allocate a fresh set object. -/
def salloc (σ : Store) (v : List Nat) : Store × Nat :=
  (σ ++ [v], σ.length)

/-- A `defaultdict(set)` access on a reference dict: return the existing
set reference or allocate a fresh empty set for a missing key. -/
def rAccess (σ : Store) (d : RDict) (k : Nat) : Store × RDict × Nat :=
  match rfind d k with
  | some r => (σ, d, r)
  | none =>
    let a := salloc σ []
    (a.1, d ++ [(k, a.2)], a.2)

/-- Python `d[k].add(v)` on a reference dict: mutates the set object in
the store, visible through every alias of that set. -/
def rAdd (σ : Store) (d : RDict) (k v : Nat) : Store × RDict :=
  let a := rAccess σ d k
  let s := sget a.1 a.2.2
  if v ∈ s then (a.1, a.2.1) else (supd a.1 a.2.2 (s ++ [v]), a.2.1)

/-- Iterator state in the reference-level model; same fields as `KState`
but the dicts hold set references. -/
structure KStateR where
  after : RDict
  lst : List Nat
  stack : List Nat
  before : RDict
  nodes : List Nat
deriving DecidableEq

/-- Model of `KahnIterator.copy` (kahn.py lines 41-50): `deque.copy`, `dict.copy`,
`list.copy` and `set.copy` of the *top-level* containers.  The dict copies
are shallow, so the returned state holds the same set references; only the
store (the set objects themselves) stays shared. -/
def copyR (s : KStateR) : KStateR :=
  { after := s.after, lst := s.lst, stack := s.stack,
    before := s.before, nodes := s.nodes }

/-- Model of `KahnIterator.add_node` in the reference-level model (same lines as
`addNode`), threading the set store. -/
def addNodeR (U : Univ) (σ : Store) (s : KStateR) (n : Nat) : Store × KStateR :=
  if n ∈ s.lst then (σ, s) else
  let q1 := (U n).after.foldl
    (fun (p : Store × RDict) u =>
      if u ∈ s.nodes then rAdd p.1 p.2 u n else p) (σ, s.before)
  let q2 := (U n).before.foldl
    (fun (p : Store × RDict) u =>
      if u ∈ s.nodes then rAdd p.1 p.2 u n else p) (q1.1, s.after)
  let q3 :=
    if (U n).after = [] then q2 else
      let a := salloc q2.1 (sdedup ((U n).after.filter
        (fun x => decide (x ∈ s.nodes) && !decide (x ∈ s.lst))))
      (a.1, rset q2.2 n a.2)
  let q4 :=
    if (U n).before = [] then (q3.1, q1.2) else
      let a := salloc q3.1 (sdedup ((U n).before.filter
        (fun x => decide (x ∈ s.nodes))))
      (a.1, rset q1.2 n a.2)
  let ready := (U n).after = [] ∨
    ∀ a ∈ sget q4.1 ((rfind q3.2 n).getD 0), a ∈ s.lst
  let stk1 := if ready then s.stack ++ [n] else s.stack
  let nds := if n ∈ s.nodes then s.nodes else s.nodes ++ [n]
  let clean := stk1.foldl
    (fun (p : (Store × RDict) × List Nat) sn =>
      let a := rAccess p.1.1 p.1.2 sn
      if (sget a.1 a.2.2).isEmpty then ((a.1, a.2.1), p.2)
      else ((a.1, a.2.1), p.2 ++ [sn]))
    ((q4.1, q3.2), [])
  let stk2 := clean.2.foldl (fun st sn => st.erase sn) stk1
  (clean.1.1,
   { after := clean.1.2, lst := s.lst, stack := stk2,
     before := q4.2, nodes := nds })

/-- Result of `__next__` in the reference-level model; every outcome
carries the store since set mutations persist. -/
inductive NextResR where
  | yield (n : Nat) (σ : Store) (s : KStateR)
  | done (σ : Store)
  | cycle (σ : Store)
  | fuelOut
deriving DecidableEq

/-- Releasing step of `__next__` in the reference-level model (kahn.py
lines 172-180): `self.after[other].remove(node)` mutates the shared set
object behind the reference — this mutation is what the pure model cannot
express. -/
def popProcessR (σ : Store) (n : Nat) (s : KStateR) : Store × KStateR :=
  let b := rAccess σ s.before n
  let res := (sget b.1 b.2.2).foldl
    (fun (p : (Store × RDict) × List Nat) other =>
      let a := rAccess p.1.1 p.1.2 other
      let v := sget a.1 a.2.2
      let σ' := if n ∈ v then supd a.1 a.2.2 (v.erase n) else a.1
      if (sget σ' a.2.2).isEmpty then ((σ', rdel a.2.1 other), p.2 ++ [other])
      else ((σ', a.2.1), p.2))
    ((b.1, s.after), s.stack)
  (res.1.1,
   { after := res.1.2, lst := s.lst, stack := res.2,
     before := b.2.1, nodes := s.nodes })

/-- Model of `KahnIterator.__next__` in the reference-level model (same lines as
`nextK`), threading the set store. -/
def nextKR (U : Univ) : Nat → Store → KStateR → NextResR
  | 0, _, _ => .fuelOut
  | fuel+1, σ, s =>
    match s.stack with
    | n :: stk =>
      let p := popProcessR σ n { s with stack := stk }
      if exclSkip U p.2.lst n then nextKR U fuel p.1 p.2
      else .yield n p.1 { p.2 with lst := p.2.lst ++ [n] }
    | [] =>
      if s.after.any (fun kv => !(sget σ kv.2).isEmpty) then
        match (s.after.filter (fun kv => (sget σ kv.2).isEmpty)).map Prod.fst with
        | [] => .cycle σ
        | p :: ps =>
          nextKR U fuel σ
            { s with stack := p :: ps, after := (p :: ps).foldl rdel s.after }
      else .done σ

/-! ## Invariants and reachable iterator states -/

/-- Relation consistency, as established by the symmetric closure in
`ConfigUnit.add_unit` (config.py lines 582-598): whoever is listed in a
unit's `after` lists that unit in its own `before`. -/
def Coherent (U : Univ) : Prop :=
  ∀ u x, x ∈ (U u).after → u ∈ (U x).before

/-- No unit is ordered after itself (a consequence of acyclicity). -/
def NoSelfDep (U : Univ) : Prop :=
  ∀ u, u ∉ (U u).after

/-- The iterator-state invariant behind topological soundness: the
pending-dependency dict has unique keys, the node set has no duplicates,
every stacked node has an empty (or absent) pending entry, and for every
known node the recorded pending entry covers all of its `after`-units that
are known, unproduced and not suppressed by exclusive-group arbitration. -/
def kahnInv (U : Univ) (s : KState) : Prop :=
  (s.after.map Prod.fst).Nodup ∧
  s.nodes.Nodup ∧
  (∀ u ∈ s.stack, dget s.after u = []) ∧
  (∀ u, u ∈ s.nodes → ∀ x, x ∈ (U u).after → x ∈ s.nodes → x ∉ s.lst →
    exclSkip U s.lst x = false → x ∈ dget s.after u)

/-- Iterator states reachable from `KahnIterator([])` by any interleaving
of `add_node`, successful `remove_node` and yielding `__next__` calls —
the mutation-tolerant setting of the spec. -/
inductive KahnReach (U : Univ) : KState → Prop where
  | init : KahnReach U kEmpty
  | add (s : KState) (n : Nat) : KahnReach U s → KahnReach U (addNode U s n)
  | rem (s s' : KState) (n : Nat) :
      KahnReach U s → removeNode U s n = some s' → KahnReach U s'
  | step (s s' : KState) (fuel n : Nat) :
      KahnReach U s → nextK U fuel s = NextRes.yield n s' → KahnReach U s'

/-- The teardown resumptions `Config.exit` is expected to perform on a
well-formed engine state: walk the history from the most recent unit,
stop at the entry point, and resume exactly the units that are not empty
and hold a suspended instance. -/
def expEvents (U : Univ) (act : AListI) (ep : Option Nat) (ran : List Nat) : List Nat :=
  (ran.reverse.takeWhile (fun u => !decide (ep = some u))).filter
    (fun u => !(U u).isEmpty && ((afind act u).getD none).isSome)

/-! ## Concrete scenario universes -/

/-- Units of spec scenario 3 (claim C2): `a = 0`, `b = 1`, `c = 2` with
`a after b`, `b after c`, `c after a` and the symmetric closure applied. -/
def UnivC2 : Univ := fun k =>
  if k = 0 then { after := [1], before := [2] }
  else if k = 1 then { after := [2], before := [0] }
  else if k = 2 then { after := [0], before := [1] }
  else {}

/-- The state of `KahnIterator([a, b, c])` for the C2 cycle. -/
def iterC2 : KState := [0, 1, 2].foldl (addNode UnivC2) kEmpty

/-- Units of spec scenario 2 (claim C6): `a = 0`, `b = 1` before `a`,
`c = 2` before `a` after `b`, `d = 3` before `c`, with the relation lists
exactly as the repository's own iterator test writes them. -/
def UnivC6 : Univ := fun k =>
  if k = 1 then { before := [0] }
  else if k = 2 then { before := [0], after := [1] }
  else if k = 3 then { before := [2] }
  else {}

/-- The state of `KahnIterator([a, b, c])` for the C6 scenario. -/
def iterC6 : KState := [0, 1, 2].foldl (addNode UnivC6) kEmpty

/-- The C6 iterator after `b` has been produced. -/
def iterC6b : KState := stateOf UnivC6 9 iterC6

/-- Units of the C1 counterexample: units `1` and `2` belong to the
exclusive group `9`; unit `3` is ordered after `2` (with the symmetric
closure `2 before 3`).  Acyclic and relation-consistent. -/
def UnivC1 : Univ := fun k =>
  if k = 1 then { belongs := [9] }
  else if k = 2 then { belongs := [9], before := [3] }
  else if k = 3 then { after := [2] }
  else if k = 9 then { exclusive := true, contains := [1, 2] }
  else {}

/-- The state of `KahnIterator([1, 2, 3])` for the C1 counterexample. -/
def iterC1 : KState := [1, 2, 3].foldl (addNode UnivC1) kEmpty

/-- The C1 iterator after the first `__next__` produced unit `1`. -/
def iterC1b : KState := stateOf UnivC1 9 iterC1

/-- Units of the C8 failing input: unit `0` is ordered after unit `1`
(with the symmetric closure `1 before 0`); unit `1` is registered with the
iterator only after `0` has already been produced. -/
def UnivC8 : Univ := fun k =>
  if k = 0 then { after := [1] }
  else if k = 1 then { before := [0] }
  else {}

/-- The state of `KahnIterator` with only unit `0` added (its dependency `1` is not yet
known, so `0` is immediately ready). -/
def iterC8 : KState := addNode UnivC8 kEmpty 0

/-- The C8 iterator after producing `0` and then learning about `1`. -/
def iterC8b : KState := addNode UnivC8 (stateOf UnivC8 9 iterC8) 1

/-- Units of the C3 scenario: `0` is an exclusive group containing `1`
and `2`, both of which belong to it (the reciprocal registration form). -/
def UnivC3 : Univ := fun k =>
  if k = 0 then { contains := [1, 2], exclusive := true }
  else if k = 1 then { belongs := [0] }
  else if k = 2 then { belongs := [0] }
  else {}

/-- An iterator that knows both members of the exclusive C3 group. -/
def iterC3 : KState := [1, 2].foldl (addNode UnivC3) kEmpty

/-- Universe for the C4 witness: three two-phase units. -/
def UnivC4 : Univ := fun k =>
  if k = 1 ∨ k = 2 ∨ k = 3 then { isEmpty := false, isGenerator := true }
  else {}

/-- Engine state for the C4 witness: units `1`, `2`, `3` ran in that
order, all holding suspended instances, with unit `1` as entry point. -/
def cstateC4 : CState :=
  { ranUnits := [1, 2, 3],
    activeUnits := [(1, some 1), (2, some 2), (3, some 3)],
    entryPoint := some 1 }

/-- Universe for the C9 failing input: two two-phase units; the teardown
step of unit `2` raises. -/
def UnivC9 : Univ := fun k =>
  if k = 1 then { isEmpty := false, isGenerator := true }
  else if k = 2 then { isEmpty := false, isGenerator := true, teardownRaises := true }
  else {}

/-- Engine state for the C9 failing input: unit `1` ran before unit `2`,
both awaiting teardown. -/
def cstateC9 : CState :=
  { ranUnits := [1, 2],
    activeUnits := [(1, some 1), (2, some 2)] }

/-- Universe of spec scenario 6 (claim C7): two-phase unit `1` runs
first; unit `2` (ordered after `1` and before units `3` and `4`) raises
`StopInitException` during setup. -/
def UnivC7 : Univ := fun k =>
  if k = 1 then { isEmpty := false, isGenerator := true, before := [2] }
  else if k = 2 then
    { isEmpty := false, setupStopInit := true, after := [1], before := [3, 4] }
  else if k = 3 then { after := [2] }
  else if k = 4 then { after := [2] }
  else {}

/-- Engine for the C7 witness: all four units targeted, a final action
configured. -/
def cstateC7 : CState :=
  { func := some 7, iter := [1, 2, 3, 4].foldl (addNode UnivC7) kEmpty }

/-- Universe for the C5 scenario: unit `1` is ordered before unit `0`. -/
def UnivC5 : Univ := fun k =>
  if k = 1 then { before := [0] } else {}

/-- The original iterator of the C5 scenario: `KahnIterator([0, 1])` in
the reference-level model (store of set objects plus state). -/
def buildC5 : Store × KStateR :=
  let b0 := addNodeR UnivC5 [] ⟨[], [], [], [], []⟩ 0
  addNodeR UnivC5 b0.1 b0.2 1

/-- Store of set objects after building the C5 original. -/
def storeC5 : Store := buildC5.1

/-- The C5 original iterator state. -/
def iterC5 : KStateR := buildC5.2

/-- One `__next__` call on `iterC5.copy()`, sharing the store with the
original. -/
def copyRunC5 : NextResR := nextKR UnivC5 9 storeC5 (copyR iterC5)

/-- The store of set objects after the call on the copy. -/
def storeC5b : Store :=
  match copyRunC5 with
  | .yield _ σ _ => σ
  | .done σ => σ
  | .cycle σ => σ
  | .fuelOut => []

/-! ## Concrete claim theorems -/

/-- Claim C2: for three units forming a genuine dependency cycle —
`a after b`, `b after c`, `c after a` with the symmetric before/after
closure of registration applied — the first call to `next()` raises
`CycleException`, whatever the fuel bound; no node is produced, so the
iterator never silently returns a partial ordering of this cyclic set. -/
theorem cycleError_on_first_next (fuel : Nat) :
    nextK UnivC2 (fuel + 1) iterC2 = NextRes.cycle ∧ iterC2.lst = [] := by
  exact ⟨rfl, rfl⟩

/-- Claim C6: with `b before a`, `c before a`, `c after b`, after `b` has
been produced the insertion of `d` (`d before c`) via `add_node` makes
iteration continue with `d`, then `c`, then `a` and then exhaust — the
complete produced order is `b, d, c, a` (ids `1, 3, 2, 0`). -/
theorem insert_mid_iteration_order :
    nextK UnivC6 9 iterC6 = NextRes.yield 1 iterC6b ∧
    drainFull UnivC6 9 (addNode UnivC6 iterC6b 3) = ([3, 2, 0], NextRes.done) ∧
    (addNode UnivC6 iterC6b 3).lst = [1] := by
  refine ⟨by decide, by decide, by decide⟩

/-- Claim C8 (failing input): unit `0` lists unit `1` in its `after`
relation; `1` becomes known to the iterator only after `0` was already
produced.  When `1` is then produced, the releasing step re-enqueues the
already-produced `0`, and the iterator yields `0` a second time: the
produced sequence is `0, 1, 0`. -/
theorem node_produced_twice :
    yieldOf UnivC8 9 iterC8 = some 0 ∧
    (stateOf UnivC8 9 iterC8).lst = [0] ∧
    drainFull UnivC8 9 iterC8b = ([1, 0], NextRes.done) ∧
    (0 ∈ (stateOf UnivC8 9 iterC8).lst) := by
  refine ⟨by decide, by decide, by decide, by decide⟩

/-- Claim C9 (failing input): two two-phase units ran (`1` then `2`) and
await teardown; the teardown step of `2` raises.  `exit()` only catches
`StopIteration`, so the exception propagates: no teardown resumption
completes, unit `1` is never resumed and stays in `active_units` and in
(reversed) history — teardown does not continue past the failing unit. -/
theorem teardown_aborts_on_exception :
    (exitC UnivC9 cstateC9).2.2 = ExitStop.raised ∧
    (exitC UnivC9 cstateC9).2.1 = [] ∧
    afind (exitC UnivC9 cstateC9).1.activeUnits 1 = some (some 1) ∧
    (exitC UnivC9 cstateC9).1.ranUnits = [1] := by
  refine ⟨by decide, by decide, by decide, by decide⟩

/-- Claim C3 (counterexample): group `0` is exclusive with members `1`
and `2`; on a fresh engine, `add_target(1, force=True)` crashes with the
`KeyError` that `remove_node(2)` raises (modelled as `none`), because `2`
is not a known node of the iterator — so no state in which `2` is
blacklisted results.  The same call succeeds when `2` is already in the
iterator, so the failure is not a fuel artifact. -/
theorem addTarget_crashes_on_unknown_sibling :
    addTarget UnivC3 5 {} 1 true = none ∧
    (addTarget UnivC3 5 { iter := addNode UnivC3 kEmpty 2 } 1 true).isSome = true := by
  refine ⟨by decide, by decide⟩

/-- Claim C5 (counterexample): `copy()` copies the dependency dicts
shallowly.  In the reference-level model the original's `after[0]` entry
references set object `0`, whose contents are `[1]`; a single `next()`
call on the copy empties that very set object, so the original's
pending-dependency map is mutated by an operation on the copy. -/
theorem copy_shares_pending_sets :
    rfind iterC5.after 0 = some 0 ∧
    sget storeC5 0 = [1] ∧
    sget storeC5b 0 = [] := by
  refine ⟨by decide, by decide, by decide⟩

/-- Claim C5 (amended): `copy()` duplicates every top-level container —
the copy's `next()` removes key `0` from its own `after` dict, leaves the
original's dict entries, ready queue, produced list and node set
untouched — but the set objects behind the dict entries are shared, so
the release step of `next()` on the copy empties the set that the
original's `after[0]` entry still references. -/
theorem copy_top_level_independent_sets_shared :
    copyR iterC5 = iterC5 ∧
    copyRunC5 = NextResR.yield 1 storeC5b
      { after := [(1, 2)], lst := [1], stack := [0],
        before := [(1, 1)], nodes := [0, 1] } ∧
    iterC5.after = [(0, 0), (1, 2)] ∧
    iterC5.stack = [1] ∧ iterC5.lst = [] ∧ iterC5.nodes = [0, 1] ∧
    sget storeC5 0 = [1] ∧ sget storeC5b 0 = [] := by
  refine ⟨by decide, by decide, by decide, by decide, by decide, by decide,
    by decide, by decide⟩

/-- Claim C10: a `ConfigUnit` constructed with an async action (async
generator function or coroutine function) receives the `ASYNC_UNIT` id in
both its `depends` and its `after` list, and is classified async. -/
theorem async_unit_added_to_async_configunits
    (aid : Nat) (kind : FuncKind)
    (h : kind = FuncKind.asyncGen ∨ kind = FuncKind.coroutine)
    (cs bl dp bf af : List Nat) (ex : Bool) :
    aid ∈ (mkConfigUnit aid kind cs bl dp bf af ex).depends ∧
    aid ∈ (mkConfigUnit aid kind cs bl dp bf af ex).after ∧
    (mkConfigUnit aid kind cs bl dp bf af ex).isAsync = true := by
  rcases h with h | h <;> subst h <;>
    simp [mkConfigUnit]

/-- Witness for the C10 theorem at a concrete input. -/
theorem async_unit_added_to_async_configunits_w :
    100 ∈ (mkConfigUnit 100 FuncKind.coroutine [] [] [5] [] [6] false).depends ∧
    100 ∈ (mkConfigUnit 100 FuncKind.coroutine [] [] [5] [] [6] false).after ∧
    (mkConfigUnit 100 FuncKind.coroutine [] [] [5] [] [6] false).isAsync = true :=
  async_unit_added_to_async_configunits 100 FuncKind.coroutine (Or.inr rfl)
    [] [] [5] [] [6] false

/-! ## Dictionary lemmas -/

theorem dfind_dset (d : Dict) (k k' : Nat) (v : List Nat) :
    dfind (dset d k v) k' = if k = k' then some v else dfind d k' := by
  induction d with
  | nil => simp [dset, dfind]
  | cons p rest ih =>
    obtain ⟨a, w⟩ := p
    by_cases hak : a = k
    · subst hak
      by_cases hk' : a = k'
      · subst hk'; simp [dset, dfind]
      · simp [dset, dfind, hk']
    · by_cases hk' : a = k'
      · subst hk'
        have hka : ¬ k = a := fun h => hak h.symm
        simp [dset, dfind, hak, hka]
      · simp [dset, dfind, hak, hk', ih]

theorem dget_dset_self (d : Dict) (k : Nat) (v : List Nat) :
    dget (dset d k v) k = v := by
  simp [dget, dfind_dset]

theorem dget_dset_ne (d : Dict) (k k' : Nat) (v : List Nat) (h : k ≠ k') :
    dget (dset d k v) k' = dget d k' := by
  simp [dget, dfind_dset, h]

theorem dfind_ddel_ne (d : Dict) (k k' : Nat) (h : k ≠ k') :
    dfind (ddel d k) k' = dfind d k' := by
  induction d with
  | nil => simp [ddel]
  | cons p rest ih =>
    obtain ⟨a, w⟩ := p
    by_cases hak : a = k
    · subst hak; simp [ddel, dfind, h]
    · simp [ddel, dfind, hak, ih]

theorem dfind_eq_none (d : Dict) (k : Nat) (h : k ∉ d.map Prod.fst) :
    dfind d k = none := by
  induction d with
  | nil => rfl
  | cons p rest ih =>
    obtain ⟨a, w⟩ := p
    simp only [List.map_cons, List.mem_cons] at h
    push_neg at h
    have hak : ¬ a = k := fun hh => h.1 hh.symm
    simp [dfind, hak, ih h.2]

theorem dhas_iff (d : Dict) (k : Nat) :
    dhas d k = true ↔ k ∈ d.map Prod.fst := by
  induction d with
  | nil => simp [dhas, dfind]
  | cons p rest ih =>
    obtain ⟨a, w⟩ := p
    by_cases hak : a = k
    · subst hak; simp [dhas, dfind]
    · have hka : ¬ k = a := fun hh => hak hh.symm
      simp only [dhas, dfind, if_neg hak, List.map_cons, List.mem_cons]
      constructor
      · intro h
        exact Or.inr (ih.mp h)
      · rintro (h | h)
        · exact absurd h hka
        · exact ih.mpr h

theorem dfind_ddel_self (d : Dict) (hnd : (d.map Prod.fst).Nodup) (k : Nat) :
    dfind (ddel d k) k = none := by
  induction d with
  | nil => rfl
  | cons p rest ih =>
    obtain ⟨a, w⟩ := p
    simp only [List.map_cons, List.nodup_cons] at hnd
    by_cases hak : a = k
    · subst hak
      simp only [ddel, if_pos rfl]
      exact dfind_eq_none rest a hnd.1
    · simp [ddel, dfind, hak, ih hnd.2]

theorem dget_ddel_self (d : Dict) (hnd : (d.map Prod.fst).Nodup) (k : Nat) :
    dget (ddel d k) k = [] := by
  simp [dget, dfind_ddel_self d hnd k]

theorem dget_ddel_ne (d : Dict) (k k' : Nat) (h : k ≠ k') :
    dget (ddel d k) k' = dget d k' := by
  simp [dget, dfind_ddel_ne d k k' h]

theorem dfind_append (d e : Dict) (k : Nat) :
    dfind (d ++ e) k = (dfind d k).or (dfind e k) := by
  induction d with
  | nil => simp [dfind]
  | cons p rest ih =>
    obtain ⟨a, w⟩ := p
    by_cases hak : a = k
    · simp [dfind, hak]
    · simp [dfind, hak, ih]

theorem dget_dmat (d : Dict) (k k' : Nat) :
    dget (dmat d k) k' = dget d k' := by
  unfold dmat
  by_cases h : dhas d k
  · simp [h]
  · simp only [h, if_false, Bool.false_eq_true]
    rw [dget, dfind_append]
    by_cases hk : k = k'
    · subst hk
      have hn : dfind d k = none := by
        unfold dhas at h
        cases hf : dfind d k with
        | none => rfl
        | some v => rw [hf] at h; simp at h
      simp [hn, dfind, dget]
    · have hn : dfind [(k, [])] k' = none := by simp [dfind, hk]
      simp [hn, dget]

theorem keys_dset (d : Dict) (k : Nat) (v : List Nat) :
    (dset d k v).map Prod.fst =
      if dhas d k then d.map Prod.fst else d.map Prod.fst ++ [k] := by
  induction d with
  | nil => simp [dset, dhas, dfind]
  | cons p rest ih =>
    obtain ⟨a, w⟩ := p
    by_cases hak : a = k
    · subst hak; simp [dset, dhas, dfind]
    · simp only [dset, if_neg hak, List.map_cons, ih, dhas, dfind]
      by_cases hh : (dfind rest k).isSome = true
      · simp [hak, hh]
      · simp [hak, hh]

theorem nodup_keys_dset (d : Dict) (hnd : (d.map Prod.fst).Nodup)
    (k : Nat) (v : List Nat) : ((dset d k v).map Prod.fst).Nodup := by
  rw [keys_dset]
  by_cases h : dhas d k
  · simpa [h] using hnd
  · have hk : k ∉ d.map Prod.fst := fun hm => h ((dhas_iff d k).mpr hm)
    simp [h, List.nodup_append, hnd, hk]

theorem keys_ddel (d : Dict) (k : Nat) :
    (ddel d k).map Prod.fst = (d.map Prod.fst).erase k := by
  induction d with
  | nil => simp [ddel]
  | cons p rest ih =>
    obtain ⟨a, w⟩ := p
    by_cases hak : a = k
    · subst hak; simp [ddel, List.erase_cons]
    · simp [ddel, List.erase_cons, hak, ih]

theorem nodup_keys_ddel (d : Dict) (hnd : (d.map Prod.fst).Nodup)
    (k : Nat) : ((ddel d k).map Prod.fst).Nodup := by
  rw [keys_ddel]; exact hnd.erase k

theorem keys_dmat (d : Dict) (k : Nat) :
    (dmat d k).map Prod.fst =
      if dhas d k then d.map Prod.fst else d.map Prod.fst ++ [k] := by
  unfold dmat
  by_cases h : dhas d k <;> simp [h]

theorem nodup_keys_dmat (d : Dict) (hnd : (d.map Prod.fst).Nodup)
    (k : Nat) : ((dmat d k).map Prod.fst).Nodup := by
  rw [keys_dmat]
  by_cases h : dhas d k
  · simpa [h] using hnd
  · have hk : k ∉ d.map Prod.fst := fun hm => h ((dhas_iff d k).mpr hm)
    simp [h, List.nodup_append, hnd, hk]

theorem nodup_keys_dAdd (d : Dict) (hnd : (d.map Prod.fst).Nodup)
    (k v : Nat) : ((dAdd d k v).map Prod.fst).Nodup := by
  unfold dAdd
  by_cases h : v ∈ dget d k
  · simpa [h] using nodup_keys_dmat d hnd k
  · simp only [h, if_false]
    exact nodup_keys_dset _ (nodup_keys_dmat d hnd k) k _

theorem dget_dAdd (d : Dict) (k v k' : Nat) :
    dget (dAdd d k v) k' =
      if k = k' then
        (if v ∈ dget d k then dget d k else dget d k ++ [v])
      else dget d k' := by
  unfold dAdd
  by_cases hv : v ∈ dget d k
  · by_cases hk : k = k'
    · subst hk; simp [hv, dget_dmat]
    · simp [hv, hk, dget_dmat]
  · by_cases hk : k = k'
    · subst hk; simp [hv, dget_dset_self, dget_dmat]
    · simp [hv, hk, dget_dset_ne _ _ _ _ hk, dget_dmat]

theorem mem_dget_dAdd_of_mem (d : Dict) (k v k' x : Nat)
    (h : x ∈ dget d k') : x ∈ dget (dAdd d k v) k' := by
  rw [dget_dAdd]
  by_cases hk : k = k'
  · subst hk
    by_cases hv : v ∈ dget d k <;> simp [hv, h]
  · simp [hk, h]

theorem mem_dget_dAdd_self (d : Dict) (k v : Nat) :
    v ∈ dget (dAdd d k v) k := by
  rw [dget_dAdd]
  by_cases hv : v ∈ dget d k <;> simp [hv]

/-! ## Fold lemmas for the iterator's loops -/

theorem foldl_dAdd_mem_mono (nds : List Nat) (n : Nat) (l : List Nat) :
    ∀ (d : Dict) (k x : Nat), x ∈ dget d k →
      x ∈ dget (l.foldl (fun d u => if u ∈ nds then dAdd d u n else d) d) k := by
  induction l with
  | nil => intro d k x hx; exact hx
  | cons b l ih =>
    intro d k x hx
    simp only [List.foldl_cons]
    apply ih
    by_cases hb : b ∈ nds
    · rw [if_pos hb]
      exact mem_dget_dAdd_of_mem d b n k x hx
    · rw [if_neg hb]; exact hx

theorem foldl_dAdd_mem_self (nds : List Nat) (n : Nat) (l : List Nat) :
    ∀ (d : Dict) (u : Nat), u ∈ l → u ∈ nds →
      n ∈ dget (l.foldl (fun d u' => if u' ∈ nds then dAdd d u' n else d) d) u := by
  induction l with
  | nil => intro d u h; cases h
  | cons b l ih =>
    intro d u hu hnds
    simp only [List.foldl_cons]
    rcases List.mem_cons.mp hu with rfl | hu'
    · apply foldl_dAdd_mem_mono
      rw [if_pos hnds]
      exact mem_dget_dAdd_self d u n
    · exact ih _ u hu' hnds

theorem foldl_dAdd_nodup (nds : List Nat) (n : Nat) (l : List Nat) :
    ∀ (d : Dict), (d.map Prod.fst).Nodup →
      (((l.foldl (fun d u => if u ∈ nds then dAdd d u n else d) d)).map Prod.fst).Nodup := by
  induction l with
  | nil => intro d hd; exact hd
  | cons b l ih =>
    intro d hd
    simp only [List.foldl_cons]
    apply ih
    by_cases hb : b ∈ nds
    · rw [if_pos hb]; exact nodup_keys_dAdd d hd b n
    · rw [if_neg hb]; exact hd

theorem mem_dget_delStep (d : Dict)
    (u n k x : Nat) (hx : x ≠ n) (h : x ∈ dget d k) :
    x ∈ dget (delStep d u n) k := by
  unfold delStep
  by_cases hku : u = k
  · subst hku
    have hxe : x ∈ (dget d u).erase n := (List.mem_erase_of_ne hx).mpr h
    have hne : ¬((dget d u).erase n).isEmpty = true := by
      cases he : (dget d u).erase n with
      | nil => rw [he] at hxe; cases hxe
      | cons a l => simp
    simp only [hne, if_false, Bool.false_eq_true]
    rw [dget_dset_self]
    exact hxe
  · by_cases he : ((dget d u).erase n).isEmpty = true
    · simp only [he, if_true]
      rwa [dget_ddel_ne d u k (fun hh => hku hh)]
    · simp only [he, if_false, Bool.false_eq_true]
      rwa [dget_dset_ne d u k _ (fun hh => hku hh)]

theorem nodup_keys_delStep (d : Dict) (hnd : (d.map Prod.fst).Nodup)
    (u n : Nat) : ((delStep d u n).map Prod.fst).Nodup := by
  unfold delStep
  by_cases he : ((dget d u).erase n).isEmpty = true
  · simp only [he, if_true]; exact nodup_keys_ddel d hnd u
  · simp only [he, if_false, Bool.false_eq_true]
    exact nodup_keys_dset d hnd u _

theorem foldl_delStep_mem (n : Nat) (l : List Nat) :
    ∀ (d : Dict), (d.map Prod.fst).Nodup →
      ∀ (k x : Nat), x ≠ n → x ∈ dget d k →
        x ∈ dget (l.foldl (fun d u => delStep d u n) d) k := by
  induction l with
  | nil => intro d _ k x _ h; exact h
  | cons b l ih =>
    intro d hd k x hx h
    simp only [List.foldl_cons]
    exact ih _ (nodup_keys_delStep d hd b n) k x hx
      (mem_dget_delStep d b n k x hx h)

theorem foldl_delStep_nodup (n : Nat) (l : List Nat) :
    ∀ (d : Dict), (d.map Prod.fst).Nodup →
      (((l.foldl (fun d u => delStep d u n) d)).map Prod.fst).Nodup := by
  induction l with
  | nil => intro d hd; exact hd
  | cons b l ih =>
    intro d hd
    simp only [List.foldl_cons]
    exact ih _ (nodup_keys_delStep d hd b n)

theorem foldl_relStep_spec (n : Nat) (l : List Nat) :
    ∀ (d : Dict) (st : List Nat),
      (d.map Prod.fst).Nodup →
      (∀ u ∈ st, dget d u = []) →
      ((((l.foldl (relStep n) (d, st)).1).map Prod.fst).Nodup ∧
       (∀ u ∈ (l.foldl (relStep n) (d, st)).2,
          dget (l.foldl (relStep n) (d, st)).1 u = []) ∧
       (∀ k x, x ≠ n → x ∈ dget d k → x ∈ dget (l.foldl (relStep n) (d, st)).1 k)) := by
  induction l with
  | nil => exact fun d st hd hst => ⟨hd, hst, fun k x _ h => h⟩
  | cons b l ih =>
    intro d st hd hst
    simp only [List.foldl_cons]
    by_cases he : ((dget d b).erase n).isEmpty = true
    · have hstep : relStep n (d, st) b = (ddel d b, st ++ [b]) := by
        unfold relStep; simp [he]
      rw [hstep]
      have he' : (dget d b).erase n = [] := List.isEmpty_iff.mp he
      have hd' := nodup_keys_ddel d hd b
      have hst' : ∀ u ∈ st ++ [b], dget (ddel d b) u = [] := by
        intro u hu
        rcases List.mem_append.mp hu with hu | hu
        · by_cases hub : u = b
          · subst hub; exact dget_ddel_self d hd u
          · rw [dget_ddel_ne d b u (fun hh => hub hh.symm)]
            exact hst u hu
        · have hub : u = b := by simpa using hu
          subst hub; exact dget_ddel_self d hd u
      obtain ⟨a1, a2, a3⟩ := ih (ddel d b) (st ++ [b]) hd' hst'
      refine ⟨a1, a2, ?_⟩
      intro k x hx h
      apply a3 k x hx
      by_cases hkb : k = b
      · subst hkb
        have hxe : x ∈ (dget d k).erase n := (List.mem_erase_of_ne hx).mpr h
        rw [he'] at hxe
        cases hxe
      · rw [dget_ddel_ne d b k (fun hh => hkb hh.symm)]
        exact h
    · have hstep : relStep n (d, st) b = (dset d b ((dget d b).erase n), st) := by
        unfold relStep; simp [he]
      rw [hstep]
      have hd' := nodup_keys_dset d hd b ((dget d b).erase n)
      have hst' : ∀ u ∈ st, dget (dset d b ((dget d b).erase n)) u = [] := by
        intro u hu
        by_cases hub : u = b
        · subst hub
          have h0 := hst u hu
          rw [h0] at he
          simp at he
        · rw [dget_dset_ne d b u _ (fun hh => hub hh.symm)]
          exact hst u hu
      obtain ⟨a1, a2, a3⟩ := ih _ st hd' hst'
      refine ⟨a1, a2, ?_⟩
      intro k x hx h
      apply a3 k x hx
      by_cases hkb : k = b
      · subst hkb
        rw [dget_dset_self]
        exact (List.mem_erase_of_ne hx).mpr h
      · rw [dget_dset_ne d b k _ (fun hh => hkb hh.symm)]
        exact h

theorem foldl_rescanStep_spec (lst : List Nat) (l : List Nat) :
    ∀ (d : Dict) (st : List Nat),
      (d.map Prod.fst).Nodup →
      (∀ u ∈ st, dget d u = []) →
      ((((l.foldl (rescanStep lst) (d, st)).1).map Prod.fst).Nodup ∧
       (∀ u ∈ (l.foldl (rescanStep lst) (d, st)).2,
          dget (l.foldl (rescanStep lst) (d, st)).1 u = []) ∧
       (∀ k, dget (l.foldl (rescanStep lst) (d, st)).1 k = dget d k)) := by
  induction l with
  | nil => exact fun d st hd hst => ⟨hd, hst, fun k => rfl⟩
  | cons b l ih =>
    intro d st hd hst
    simp only [List.foldl_cons]
    by_cases hb : b ∈ lst
    · have hstep : rescanStep lst (d, st) b = (d, st) := by
        unfold rescanStep; simp [hb]
      rw [hstep]
      exact ih d st hd hst
    · by_cases he : (dget (dmat d b) b).isEmpty = true
      · have hstep : rescanStep lst (d, st) b = (dmat d b, st ++ [b]) := by
          unfold rescanStep; simp [hb, he]
        rw [hstep]
        have hd' := nodup_keys_dmat d hd b
        have hst' : ∀ u ∈ st ++ [b], dget (dmat d b) u = [] := by
          intro u hu
          rw [dget_dmat]
          rcases List.mem_append.mp hu with hu | hu
          · exact hst u hu
          · have hub : u = b := by simpa using hu
            subst hub
            rw [dget_dmat] at he
            exact List.isEmpty_iff.mp he
        obtain ⟨a1, a2, a3⟩ := ih _ _ hd' hst'
        exact ⟨a1, a2, fun k => by rw [a3 k, dget_dmat]⟩
      · have hstep : rescanStep lst (d, st) b = (dmat d b, st) := by
          unfold rescanStep; simp [hb, he]
        rw [hstep]
        have hd' := nodup_keys_dmat d hd b
        have hst' : ∀ u ∈ st, dget (dmat d b) u = [] := by
          intro u hu
          rw [dget_dmat]
          exact hst u hu
        obtain ⟨a1, a2, a3⟩ := ih _ _ hd' hst'
        exact ⟨a1, a2, fun k => by rw [a3 k, dget_dmat]⟩

theorem foldl_dmat_dget (l : List Nat) :
    ∀ (d : Dict) (k : Nat),
      dget (l.foldl (fun d sn => dmat d sn) d) k = dget d k := by
  induction l with
  | nil => intro d k; rfl
  | cons b l ih =>
    intro d k
    simp only [List.foldl_cons]
    rw [ih, dget_dmat]

theorem foldl_dmat_nodup (l : List Nat) :
    ∀ (d : Dict), (d.map Prod.fst).Nodup →
      ((l.foldl (fun d sn => dmat d sn) d).map Prod.fst).Nodup := by
  induction l with
  | nil => intro d hd; exact hd
  | cons b l ih =>
    intro d hd
    simp only [List.foldl_cons]
    exact ih _ (nodup_keys_dmat d hd b)

theorem mem_of_mem_foldl_erase (bad : List Nat) :
    ∀ (st : List Nat) (u : Nat),
      u ∈ bad.foldl (fun s b => s.erase b) st → u ∈ st := by
  induction bad with
  | nil => intro st u h; exact h
  | cons b bad ih =>
    intro st u h
    exact List.mem_of_mem_erase (ih _ u h)

theorem count_foldl_erase (u : Nat) (bad : List Nat) :
    ∀ (st : List Nat), st.count u ≤ bad.count u →
      (bad.foldl (fun s b => s.erase b) st).count u = 0 := by
  induction bad with
  | nil =>
    intro st h
    simp only [List.foldl_nil]
    simpa using Nat.le_zero.mp (by simpa using h)
  | cons b bad ih =>
    intro st h
    simp only [List.foldl_cons]
    apply ih
    by_cases hbu : b = u
    · subst hbu
      rw [List.count_erase_self]
      have := List.count_cons_self b st
      have h2 : (b :: bad).count b = bad.count b + 1 := List.count_cons_self b bad
      omega
    · rw [List.count_erase_of_ne (fun hh => hbu hh.symm)]
      have h2 : (b :: bad).count u = bad.count u := List.count_cons_of_ne (fun hh => hbu hh.symm) bad
      omega

theorem cleanup_not_bad (st : List Nat) (p : Nat → Bool) (u : Nat)
    (h : u ∈ (st.filter p).foldl (fun s b => s.erase b) st) : p u = false := by
  by_cases hp : p u = true
  · exfalso
    have hcnt : st.count u ≤ (st.filter p).count u := by
      rw [List.count_filter hp]
    have hz := count_foldl_erase u (st.filter p) st hcnt
    have hm := List.count_pos_iff.mpr h
    omega
  · simpa using hp

theorem mem_sdedup_aux (l : List Nat) :
    ∀ (acc : List Nat) (x : Nat),
      x ∈ l.foldl (fun acc x => if x ∈ acc then acc else acc ++ [x]) acc ↔
        x ∈ acc ∨ x ∈ l := by
  induction l with
  | nil => simp
  | cons b l ih =>
    intro acc x
    simp only [List.foldl_cons]
    by_cases hb : b ∈ acc
    · rw [if_pos hb, ih]
      constructor
      · rintro (h | h)
        · exact Or.inl h
        · exact Or.inr (List.mem_cons_of_mem b h)
      · rintro (h | h)
        · exact Or.inl h
        · rcases List.mem_cons.mp h with rfl | h'
          · exact Or.inl hb
          · exact Or.inr h'
    · rw [if_neg hb, ih]
      simp only [List.mem_append, List.mem_cons, List.mem_singleton]
      tauto

theorem mem_sdedup (l : List Nat) (x : Nat) : x ∈ sdedup l ↔ x ∈ l := by
  unfold sdedup
  rw [mem_sdedup_aux]
  simp

theorem kahnInv_kEmpty (U : Univ) : kahnInv U kEmpty := by
  refine ⟨?_, ?_, ?_, ?_⟩ <;> simp [kEmpty, kahnInv]

theorem kahnInv_addNode (U : Univ) (hco : Coherent U) (hns : NoSelfDep U)
    (s : KState) (hinv : kahnInv U s) (n : Nat) :
    kahnInv U (addNode U s n) := by
  obtain ⟨hk, hn, hs, hj⟩ := hinv
  by_cases hmem : n ∈ s.lst
  · unfold addNode
    rw [if_pos hmem]
    exact ⟨hk, hn, hs, hj⟩
  unfold addNode
  rw [if_neg hmem]
  unfold kahnInv
  dsimp only
  set aft1 := (U n).before.foldl
    (fun d u => if u ∈ s.nodes then dAdd d u n else d) s.after with haft1
  set vset := sdedup ((U n).after.filter
    (fun x => decide (x ∈ s.nodes) && !decide (x ∈ s.lst))) with hvset
  set aft2 := if (U n).after = [] then aft1 else dset aft1 n vset with haft2
  set stk1 := if (U n).after = [] ∨ ∀ a ∈ dget aft2 n, a ∈ s.lst then
    s.stack ++ [n] else s.stack with hstk1
  set nds := if n ∈ s.nodes then s.nodes else s.nodes ++ [n] with hnds
  set aft3 := stk1.foldl (fun d sn => dmat d sn) aft2 with haft3
  have hk1 : (aft1.map Prod.fst).Nodup :=
    foldl_dAdd_nodup s.nodes n (U n).before s.after hk
  have hk2 : (aft2.map Prod.fst).Nodup := by
    rw [haft2]
    split
    · exact hk1
    · exact nodup_keys_dset aft1 hk1 n vset
  refine ⟨?_, ?_, ?_, ?_⟩
  · exact foldl_dmat_nodup stk1 aft2 hk2
  · rw [hnds]
    split
    · exact hn
    · next h =>
      simp [List.nodup_append, hn, h]
  · intro u hu
    have hpu := cleanup_not_bad stk1 (fun sn => !(dget aft3 sn).isEmpty) u hu
    simp only [Bool.not_eq_false'] at hpu
    exact List.isEmpty_iff.mp hpu
  · intro u hu x hxa hxn hxl hxs
    rw [haft3, foldl_dmat_dget]
    have hu' : u ∈ s.nodes ∨ u = n := by
      rw [hnds] at hu
      by_cases h : n ∈ s.nodes
      · rw [if_pos h] at hu
        exact Or.inl hu
      · rw [if_neg h] at hu
        rcases List.mem_append.mp hu with h1 | h1
        · exact Or.inl h1
        · exact Or.inr (by simpa using h1)
    have hx' : x ∈ s.nodes ∨ x = n := by
      rw [hnds] at hxn
      by_cases h : n ∈ s.nodes
      · rw [if_pos h] at hxn
        exact Or.inl hxn
      · rw [if_neg h] at hxn
        rcases List.mem_append.mp hxn with h1 | h1
        · exact Or.inl h1
        · exact Or.inr (by simpa using h1)
    by_cases hun : u = n
    · rw [hun] at hxa ⊢
      have hne : (U n).after ≠ [] := fun h0 => by rw [h0] at hxa; cases hxa
      rw [haft2, if_neg hne, dget_dset_self, hvset, mem_sdedup]
      have hxnodes : x ∈ s.nodes := by
        rcases hx' with h | h
        · exact h
        · rw [h] at hxa
          exact absurd hxa (hns n)
      rw [List.mem_filter]
      refine ⟨hxa, ?_⟩
      simp [hxnodes, hxl]
    · have hu'' : u ∈ s.nodes := hu'.resolve_right hun
      by_cases hxn' : x = n
      · rw [hxn']
        have hxa' : n ∈ (U u).after := hxn' ▸ hxa
        have hub : u ∈ (U n).before := hco u n hxa'
        have h1 : n ∈ dget aft1 u := by
          rw [haft1]
          exact foldl_dAdd_mem_self s.nodes n (U n).before s.after u hub hu''
        rw [haft2]
        split
        · exact h1
        · rw [dget_dset_ne _ _ _ _ (fun hh => hun hh.symm)]
          exact h1
      · have hx'' : x ∈ s.nodes := hx'.resolve_right hxn'
        have h0 : x ∈ dget s.after u := hj u hu'' x hxa hx'' hxl hxs
        have h1 : x ∈ dget aft1 u := by
          rw [haft1]
          exact foldl_dAdd_mem_mono s.nodes n (U n).before s.after u x h0
        rw [haft2]
        split
        · exact h1
        · rw [dget_dset_ne _ _ _ _ (fun hh => hun hh.symm)]
          exact h1

theorem dget_delStep_sub (d : Dict) (hnd : (d.map Prod.fst).Nodup)
    (u n k x : Nat) (h : x ∈ dget (delStep d u n) k) : x ∈ dget d k := by
  unfold delStep at h
  by_cases he : ((dget d u).erase n).isEmpty = true
  · rw [if_pos he] at h
    by_cases hku : u = k
    · subst hku
      rw [dget_ddel_self d hnd u] at h
      cases h
    · rwa [dget_ddel_ne d u k hku] at h
  · rw [if_neg he] at h
    by_cases hku : u = k
    · subst hku
      rw [dget_dset_self] at h
      exact List.mem_of_mem_erase h
    · rwa [dget_dset_ne d u k _ hku] at h

theorem foldl_delStep_sub (n : Nat) (l : List Nat) :
    ∀ (d : Dict), (d.map Prod.fst).Nodup →
      ∀ (k x : Nat), x ∈ dget (l.foldl (fun d u => delStep d u n) d) k →
        x ∈ dget d k := by
  induction l with
  | nil => intro d _ k x h; exact h
  | cons b l ih =>
    intro d hd k x h
    simp only [List.foldl_cons] at h
    exact dget_delStep_sub d hd b n k x
      (ih _ (nodup_keys_delStep d hd b n) k x h)

theorem kahnInv_removeNode (U : Univ)
    (s : KState) (hinv : kahnInv U s) (n : Nat) (s' : KState)
    (h : removeNode U s n = some s') : kahnInv U s' := by
  obtain ⟨hk, hn, hs, hj⟩ := hinv
  unfold removeNode at h
  by_cases hmem : n ∈ s.lst
  · rw [if_pos hmem] at h; cases h
  rw [if_neg hmem] at h
  dsimp only at h
  by_cases hnn : n ∉ s.nodes
  · rw [if_pos hnn] at h; cases h
  rw [if_neg hnn] at h
  injection h with h
  rw [← h]
  unfold kahnInv
  dsimp only
  set aft1 := (U n).before.foldl (fun d u => delStep d u n) s.after with haft1
  set aft2 := ddel aft1 n with haft2
  set stk1 := s.stack.erase n with hstk1
  have hk1 : (aft1.map Prod.fst).Nodup :=
    foldl_delStep_nodup n (U n).before s.after hk
  have hk2 : (aft2.map Prod.fst).Nodup := nodup_keys_ddel aft1 hk1 n
  have hstp : ∀ u ∈ stk1, dget aft2 u = [] := by
    intro u hu
    have hu' : u ∈ s.stack := List.mem_of_mem_erase hu
    by_cases hun : n = u
    · rw [haft2, hun, dget_ddel_self aft1 hk1 u]
    · rw [haft2, dget_ddel_ne aft1 n u hun]
      have h0 := hs u hu'
      cases he : dget aft1 u with
      | nil => rfl
      | cons a w =>
        exfalso
        have ha : a ∈ dget aft1 u := by rw [he]; exact List.mem_cons_self a w
        have := foldl_delStep_sub n (U n).before s.after hk u a ha
        rw [h0] at this
        cases this
  obtain ⟨a1, a2, a3⟩ :=
    foldl_rescanStep_spec s.lst (s.nodes.erase n) aft2 stk1 hk2 hstp
  refine ⟨a1, ?_, a2, ?_⟩
  · exact hn.erase n
  · intro u hu x hxa hxn hxl hxs
    rw [a3 u]
    have hu' := (List.Nodup.mem_erase_iff hn).mp hu
    have hx' := (List.Nodup.mem_erase_iff hn).mp hxn
    have h0 : x ∈ dget s.after u := hj u hu'.2 x hxa hx'.2 hxl hxs
    have h1 : x ∈ dget aft1 u := by
      rw [haft1]
      exact foldl_delStep_mem n (U n).before s.after hk u x hx'.1 h0
    rw [haft2, dget_ddel_ne aft1 n u (fun hh => hu'.1 hh.symm)]
    exact h1

theorem foldl_ddel_nodup (l : List Nat) :
    ∀ (d : Dict), (d.map Prod.fst).Nodup →
      ((l.foldl ddel d).map Prod.fst).Nodup := by
  induction l with
  | nil => intro d hd; exact hd
  | cons b l ih =>
    intro d hd
    simp only [List.foldl_cons]
    exact ih _ (nodup_keys_ddel d hd b)

theorem foldl_ddel_dget_not_mem (l : List Nat) :
    ∀ (d : Dict) (k : Nat), k ∉ l →
      dget (l.foldl ddel d) k = dget d k := by
  induction l with
  | nil => intro d k _; rfl
  | cons b l ih =>
    intro d k hk
    simp only [List.foldl_cons]
    have hkb : b ≠ k := fun hh => hk (hh ▸ List.mem_cons_self b l)
    rw [ih _ k (fun hh => hk (List.mem_cons_of_mem b hh)), dget_ddel_ne d b k hkb]

theorem foldl_ddel_dget_mem (l : List Nat) :
    ∀ (d : Dict), (d.map Prod.fst).Nodup → ∀ (k : Nat), k ∈ l →
      dget (l.foldl ddel d) k = [] := by
  induction l with
  | nil => intro d _ k hk; cases hk
  | cons b l ih =>
    intro d hd k hk
    simp only [List.foldl_cons]
    by_cases hkl : k ∈ l
    · exact ih _ (nodup_keys_ddel d hd b) k hkl
    · have hkb : k = b := by
        rcases List.mem_cons.mp hk with h | h
        · exact h
        · exact absurd h hkl
      subst hkb
      rw [foldl_ddel_dget_not_mem l _ k hkl]
      exact dget_ddel_self d hd k

theorem mem_dfind_of_nodup (d : Dict) (hnd : (d.map Prod.fst).Nodup)
    (k : Nat) (v : List Nat) (h : (k, v) ∈ d) : dfind d k = some v := by
  induction d with
  | nil => cases h
  | cons p rest ih =>
    obtain ⟨a, w⟩ := p
    simp only [List.map_cons, List.nodup_cons] at hnd
    rcases List.mem_cons.mp h with h | h
    · rw [← h]
      simp [dfind]
    · have hak : a ≠ k := by
        intro hh
        subst hh
        exact hnd.1 (List.mem_map.mpr ⟨(a, v), h, rfl⟩)
      simp only [dfind, if_neg hak]
      exact ih hnd.2 h

theorem exclSkip_mono (U : Univ) (lst l2 : List Nat) (x : Nat)
    (h : exclSkip U lst x = true) : exclSkip U (lst ++ l2) x = true := by
  unfold exclSkip at h ⊢
  rw [List.any_eq_true] at h ⊢
  obtain ⟨p, hp, hcond⟩ := h
  refine ⟨p, hp, ?_⟩
  rw [Bool.and_eq_true] at hcond ⊢
  obtain ⟨he, hany⟩ := hcond
  refine ⟨he, ?_⟩
  rw [List.any_eq_true] at hany ⊢
  obtain ⟨u, hu, hub⟩ := hany
  exact ⟨u, List.mem_append_left _ hu, hub⟩

theorem popProcess_spec (n : Nat) (s : KState)
    (hk : (s.after.map Prod.fst).Nodup)
    (hs : ∀ u ∈ s.stack, dget s.after u = []) :
    (((popProcess n s).after.map Prod.fst).Nodup ∧
     (∀ u ∈ (popProcess n s).stack, dget (popProcess n s).after u = []) ∧
     (∀ k x, x ≠ n → x ∈ dget s.after k → x ∈ dget (popProcess n s).after k) ∧
     (popProcess n s).lst = s.lst ∧ (popProcess n s).nodes = s.nodes) := by
  unfold popProcess
  dsimp only
  obtain ⟨a1, a2, a3⟩ :=
    foldl_relStep_spec n (dget (dmat s.before n) n) s.after s.stack hk hs
  exact ⟨a1, a2, a3, rfl, rfl⟩

theorem nextK_succ (U : Univ) (fuel : Nat) (s : KState) :
    nextK U (fuel + 1) s =
      match s.stack with
      | n :: stk =>
        let s₂ := popProcess n { s with stack := stk }
        if exclSkip U s₂.lst n then nextK U fuel s₂
        else NextRes.yield n { s₂ with lst := s₂.lst ++ [n] }
      | [] =>
        if s.after.any (fun kv => !kv.2.isEmpty) then
          match (s.after.filter (fun kv => kv.2.isEmpty)).map Prod.fst with
          | [] => NextRes.cycle
          | p :: ps =>
            nextK U fuel
              { s with stack := p :: ps, after := (p :: ps).foldl ddel s.after }
        else NextRes.done := rfl

theorem nextK_spec (U : Univ) :
    ∀ (fuel : Nat) (s : KState), kahnInv U s →
      ∀ (n : Nat) (s' : KState), nextK U fuel s = NextRes.yield n s' →
        (kahnInv U s' ∧ s'.lst = s.lst ++ [n] ∧ s'.nodes = s.nodes ∧
         (n ∈ s.nodes → ∀ x, x ∈ (U n).after → x ∈ s.nodes → x ∉ s.lst →
            exclSkip U s.lst x = true)) := by
  intro fuel
  induction fuel with
  | zero =>
    intro s _ n s' h
    simp [nextK] at h
  | succ fuel ih =>
    intro s hinv n s' h
    have hinv' := hinv
    obtain ⟨hk, hn, hs, hj⟩ := hinv'
    rw [nextK_succ] at h
    cases hstk : s.stack with
    | cons m stk =>
      rw [hstk] at h
      dsimp only at h
      have hs' : ∀ u ∈ stk, dget s.after u = [] := by
        intro u hu
        exact hs u (by rw [hstk]; exact List.mem_cons_of_mem m hu)
      have hsm : dget s.after m = [] :=
        hs m (by rw [hstk]; exact List.mem_cons_self m stk)
      obtain ⟨p1, p2, p3, p4, p5⟩ :=
        popProcess_spec m { s with stack := stk } hk (by intro u hu; exact hs' u hu)
      dsimp only at p4 p5
      set P := popProcess m { s with stack := stk } with hP
      by_cases hskip : exclSkip U P.lst m = true
      · rw [if_pos hskip] at h
        have hPinv : kahnInv U P := by
          refine ⟨p1, ?_, p2, ?_⟩
          · rw [p5]; exact hn
          · intro u hu x hxa hxn hxl hxs
            rw [p5] at hu hxn
            rw [p4] at hxl hxs
            by_cases hxm : x = m
            · exfalso
              rw [hxm] at hxs
              rw [p4] at hskip
              rw [hskip] at hxs
              cases hxs
            · exact p3 u x hxm (hj u hu x hxa hxn hxl hxs)
        obtain ⟨q1, q2, q3, q4⟩ := ih P hPinv n s' h
        refine ⟨q1, ?_, ?_, ?_⟩
        · rw [q2, p4]
        · rw [q3, p5]
        · intro hnn x hxa hxn hxl
          rw [← p5] at hnn hxn
          rw [← p4] at hxl
          have hq := q4 hnn x hxa hxn hxl
          rwa [p4] at hq
      · rw [if_neg hskip] at h
        injection h with h1 h2
        rw [← h2, ← h1]
        rw [p4] at hskip
        have hskipf : exclSkip U s.lst m = false := by
          cases hb : exclSkip U s.lst m with
          | false => rfl
          | true => exact absurd hb hskip
        refine ⟨⟨p1, ?_, p2, ?_⟩, ?_, ?_, ?_⟩
        · show P.nodes.Nodup
          rw [p5]; exact hn
        · show ∀ u, u ∈ P.nodes → ∀ x, x ∈ (U u).after → x ∈ P.nodes →
            x ∉ P.lst ++ [m] → exclSkip U (P.lst ++ [m]) x = false →
            x ∈ dget P.after u
          intro u hu x hxa hxn hxl hxs
          rw [p5] at hu hxn
          have hxl1 : x ∉ P.lst := fun hh => hxl (List.mem_append_left _ hh)
          have hxm : x ≠ m := by
            intro hh
            exact hxl (by rw [hh]; exact List.mem_append_right _ (List.mem_singleton.mpr rfl))
          have hxl2 : x ∉ s.lst := by rwa [p4] at hxl1
          have hxs2 : exclSkip U s.lst x = false := by
            cases hb : exclSkip U s.lst x with
            | false => rfl
            | true =>
              exfalso
              have := exclSkip_mono U P.lst [m] x (by rwa [p4])
              rw [this] at hxs
              cases hxs
          exact p3 u x hxm (hj u hu x hxa hxn hxl2 hxs2)
        · show P.lst ++ [m] = s.lst ++ [m]
          rw [p4]
        · exact p5
        · intro hmn x hxa hxn hxl
          cases hb : exclSkip U s.lst x with
          | true => rfl
          | false =>
            exfalso
            have h0 := hj m hmn x hxa hxn hxl hb
            rw [hsm] at h0
            cases h0
    | nil =>
      rw [hstk] at h
      dsimp only at h
      by_cases hany : s.after.any (fun kv => !kv.2.isEmpty) = true
      · rw [if_pos hany] at h
        cases hprom : (s.after.filter (fun kv => kv.2.isEmpty)).map Prod.fst with
        | nil =>
          rw [hprom] at h
          simp at h
        | cons p ps =>
          rw [hprom] at h
          dsimp only at h
          have hpm : ∀ u ∈ p :: ps, dget s.after u = [] := by
            intro u hu
            rw [← hprom] at hu
            obtain ⟨kv, hkv, hkv1⟩ := List.mem_map.mp hu
            have hkvf := List.mem_filter.mp hkv
            have hv : kv.2 = [] := List.isEmpty_iff.mp hkvf.2
            have hdf := mem_dfind_of_nodup s.after hk kv.1 kv.2 hkvf.1
            rw [← hkv1]
            unfold dget
            rw [hdf, hv]
            rfl
          have hinv3 : kahnInv U
              { s with stack := p :: ps, after := (p :: ps).foldl ddel s.after } := by
            refine ⟨foldl_ddel_nodup (p :: ps) s.after hk, hn, ?_, ?_⟩
            · intro u hu
              exact foldl_ddel_dget_mem (p :: ps) s.after hk u hu
            · intro u hu x hxa hxn hxl hxs
              have h0 := hj u hu x hxa hxn hxl hxs
              by_cases hup : u ∈ p :: ps
              · exfalso
                have hz := hpm u hup
                rw [hz] at h0
                cases h0
              · show x ∈ dget ((p :: ps).foldl ddel s.after) u
                rw [foldl_ddel_dget_not_mem (p :: ps) s.after u hup]
                exact h0
          obtain ⟨q1, q2, q3, q4⟩ := ih _ hinv3 n s' h
          exact ⟨q1, q2, q3, fun hnn x hxa hxn hxl => q4 hnn x hxa hxn hxl⟩
      · rw [if_neg hany] at h
        simp at h

theorem addNode_lst (U : Univ) (s : KState) (n : Nat) :
    (addNode U s n).lst = s.lst := by
  unfold addNode
  split <;> rfl

theorem removeNode_lst (U : Univ) (s : KState) (n : Nat) (s' : KState)
    (h : removeNode U s n = some s') : s'.lst = s.lst := by
  unfold removeNode at h
  by_cases hmem : n ∈ s.lst
  · rw [if_pos hmem] at h; cases h
  rw [if_neg hmem] at h
  dsimp only at h
  by_cases hnn : n ∉ s.nodes
  · rw [if_pos hnn] at h; cases h
  · rw [if_neg hnn] at h
    injection h with h
    rw [← h]

theorem nextK_yield_facts (U : Univ) :
    ∀ (fuel : Nat) (s : KState) (n : Nat) (s' : KState),
      nextK U fuel s = NextRes.yield n s' →
      s'.lst = s.lst ++ [n] ∧ exclSkip U s.lst n = false := by
  intro fuel
  induction fuel with
  | zero => intro s n s' h; simp [nextK] at h
  | succ fuel ih =>
    intro s n s' h
    rw [nextK_succ] at h
    cases hstk : s.stack with
    | cons m stk =>
      rw [hstk] at h
      dsimp only at h
      have hPl : (popProcess m { s with stack := stk }).lst = s.lst := rfl
      by_cases hskip : exclSkip U (popProcess m { s with stack := stk }).lst m = true
      · rw [if_pos hskip] at h
        obtain ⟨h1, h2⟩ := ih _ n s' h
        rw [hPl] at h1 h2
        exact ⟨h1, h2⟩
      · rw [if_neg hskip] at h
        injection h with h1 h2
        constructor
        · rw [← h2, ← h1]
          show (popProcess m { s with stack := stk }).lst ++ [m] = s.lst ++ [m]
          rw [hPl]
        · rw [← h1]
          rw [hPl] at hskip
          cases hb : exclSkip U s.lst m with
          | false => rfl
          | true => exact absurd hb hskip
    | nil =>
      rw [hstk] at h
      dsimp only at h
      by_cases hany : s.after.any (fun kv => !kv.2.isEmpty) = true
      · rw [if_pos hany] at h
        cases hprom : (s.after.filter (fun kv => kv.2.isEmpty)).map Prod.fst with
        | nil => rw [hprom] at h; simp at h
        | cons p ps =>
          rw [hprom] at h
          dsimp only at h
          obtain ⟨h1, h2⟩ := ih _ n s' h
          exact ⟨h1, h2⟩
      · rw [if_neg hany] at h
        simp at h

theorem exclSkip_false_elim (U : Univ) (lst : List Nat) (n : Nat)
    (h : exclSkip U lst n = false) (g : Nat)
    (hg : g ∈ (U n).belongs) (hex : (U g).exclusive = true)
    (u : Nat) (hu : u ∈ lst) (hub : g ∈ (U u).belongs) : False := by
  unfold exclSkip at h
  rw [List.any_eq_false] at h
  have hg' := h g hg
  rw [Bool.and_eq_true] at hg'
  push_neg at hg'
  have hany := hg' hex
  exact hany (List.any_eq_true.mpr ⟨u, hu, by simpa using hub⟩)

theorem kahnReach_inv (U : Univ) (hco : Coherent U) (hns : NoSelfDep U)
    (s : KState) (hr : KahnReach U s) : kahnInv U s := by
  induction hr with
  | init => exact kahnInv_kEmpty U
  | add s0 n hr0 ih => exact kahnInv_addNode U hco hns s0 ih n
  | rem s0 s1 n hr0 hrem ih => exact kahnInv_removeNode U s0 ih n s1 hrem
  | step s0 s1 fuel n hr0 hstep ih => exact (nextK_spec U fuel s0 ih n s1 hstep).1

theorem cohC1 : Coherent UnivC1 := by
  intro u x hx
  by_cases h3 : u = 3
  · rw [h3] at hx
    norm_num [UnivC1] at hx
    rw [hx, h3]
    norm_num [UnivC1]
  · exfalso
    have hafter : (UnivC1 u).after = [] := by
      by_cases h1 : u = 1
      · simp [UnivC1, h1]
      · by_cases h2 : u = 2
        · simp [UnivC1, h1, h2]
        · by_cases h9 : u = 9
          · simp [UnivC1, h1, h2, h3, h9]
          · simp [UnivC1, h1, h2, h3, h9]
    rw [hafter] at hx
    cases hx

theorem nsC1 : NoSelfDep UnivC1 := by
  intro u hmem
  by_cases h3 : u = 3
  · rw [h3] at hmem
    norm_num [UnivC1] at hmem
  · have hafter : (UnivC1 u).after = [] := by
      by_cases h1 : u = 1
      · simp [UnivC1, h1]
      · by_cases h2 : u = 2
        · simp [UnivC1, h1, h2]
        · by_cases h9 : u = 9
          · simp [UnivC1, h1, h2, h3, h9]
          · simp [UnivC1, h1, h2, h3, h9]
    rw [hafter] at hmem
    cases hmem

/-- Claim C1 (counterexample): units `1` and `2` belong to the exclusive
group `9`, unit `3` is ordered after `2`, the set is acyclic and
relation-consistent, and `1` has been produced.  The next call pops `2`,
releases its dependent `3` (kahn.py lines 172-180 run before the
exclusive-group check on lines 183-196), skips `2`, and returns `3` —
although `2` is listed in `3`'s `after` relation, known to the iterator
and never produced.  This falsifies the claim as stated. -/
theorem yield_with_unproduced_dependency :
    nextK UnivC1 9 iterC1b = NextRes.yield 3 (stateOf UnivC1 9 iterC1b) ∧
    2 ∈ (UnivC1 3).after ∧
    2 ∈ (stateOf UnivC1 9 iterC1b).nodes ∧
    2 ∉ (stateOf UnivC1 9 iterC1b).lst ∧
    (stateOf UnivC1 9 iterC1b).lst = [1, 3] := by
  refine ⟨by decide, by decide, by decide, by decide, by decide⟩

/-- Claim C1 (amended): over every reachable state of an acyclic
(`NoSelfDep`), relation-consistent (`Coherent`) unit universe — including
states produced by adding and removing units mid-iteration — whenever
`next()` returns a unit that is itself still known to the iterator, every
unit of its `after` relation that is known and not yet produced was
suppressed by the exclusive-group arbitration (a member of an exclusive
group another member of which is already in the produced history). -/
theorem topological_soundness_mod_exclusive (U : Univ)
    (hco : Coherent U) (hns : NoSelfDep U) (s : KState) (hr : KahnReach U s)
    (fuel n : Nat) (s' : KState) (h : nextK U fuel s = NextRes.yield n s')
    (hkn : n ∈ s.nodes) :
    ∀ x, x ∈ (U n).after → x ∈ s.nodes → x ∉ s.lst →
      exclSkip U s.lst x = true :=
  (nextK_spec U fuel s (kahnReach_inv U hco hns s hr) n s' h).2.2.2 hkn

/-- Witness for the amended C1 theorem on the C1 scenario itself, fully
instantiated: at the call that yields unit `3`, its dependency `2` is
known, unproduced, and indeed exclusive-group suppressed. -/
theorem topological_soundness_mod_exclusive_w :
    2 ∈ (UnivC1 3).after ∧ 2 ∈ iterC1b.nodes ∧ 2 ∉ iterC1b.lst ∧
    exclSkip UnivC1 iterC1b.lst 2 = true := by
  have hreach0 : KahnReach UnivC1 iterC1 := by
    have he : iterC1 =
        addNode UnivC1 (addNode UnivC1 (addNode UnivC1 kEmpty 1) 2) 3 := rfl
    rw [he]
    exact KahnReach.add _ 3 (KahnReach.add _ 2 (KahnReach.add _ 1 KahnReach.init))
  have hstep1 : nextK UnivC1 9 iterC1 = NextRes.yield 1 iterC1b := by decide
  have hreach : KahnReach UnivC1 iterC1b :=
    KahnReach.step iterC1 iterC1b 9 1 hreach0 hstep1
  have hstep2 : nextK UnivC1 9 iterC1b =
      NextRes.yield 3 (stateOf UnivC1 9 iterC1b) := by decide
  exact ⟨by decide, by decide, by decide,
    topological_soundness_mod_exclusive UnivC1 cohC1 nsC1 iterC1b hreach
      9 3 (stateOf UnivC1 9 iterC1b) hstep2 (by decide) 2 (by decide)
      (by decide) (by decide)⟩

/-- Claim C3 (amended theorem): over every reachable iterator state —
any interleaving of `add_node`, `remove_node` and `next()` calls — and
for every exclusive group, at most one unit belonging to that group ever
appears in the produced history: the arbitration in `__next__` (kahn.py
lines 183-196) skips any further member once one member is produced. -/
theorem exclusive_group_at_most_one (U : Univ) (s : KState)
    (hr : KahnReach U s) (g : Nat) (hg : (U g).exclusive = true) :
    ∀ x ∈ s.lst, ∀ y ∈ s.lst,
      g ∈ (U x).belongs → g ∈ (U y).belongs → x = y := by
  induction hr with
  | init =>
    intro x hx
    simp [kEmpty] at hx
  | add s0 n hr0 ih =>
    rw [addNode_lst U s0 n]
    exact ih
  | rem s0 s1 n hr0 hrem ih =>
    rw [removeNode_lst U s0 n s1 hrem]
    exact ih
  | step s0 s1 fuel n hr0 hstep ih =>
    obtain ⟨hl, hskip⟩ := nextK_yield_facts U fuel s0 n s1 hstep
    rw [hl]
    intro x hx y hy hgx hgy
    rcases List.mem_append.mp hx with hx' | hx' <;>
      rcases List.mem_append.mp hy with hy' | hy'
    · exact ih x hx' y hy' hgx hgy
    · exfalso
      have hyn : y = n := by simpa using hy'
      rw [hyn] at hgy
      exact exclSkip_false_elim U s0.lst n hskip g hgy hg x hx' hgx
    · exfalso
      have hxn : x = n := by simpa using hx'
      rw [hxn] at hgx
      exact exclSkip_false_elim U s0.lst n hskip g hgx hg y hy' hgy
    · have hxn : x = n := by simpa using hx'
      have hyn : y = n := by simpa using hy'
      rw [hxn, hyn]

/-- Witness for the C3 amended theorem, fully instantiated: in the C3
scenario (group `0` exclusive with members `1` and `2`, both added
directly to the iterator), after the iterator has produced unit `1`, the
produced members `1` and `1` of group `0` coincide. -/
theorem exclusive_group_at_most_one_w :
    (UnivC3 0).exclusive = true ∧ 1 ∈ (stateOf UnivC3 9 iterC3).lst ∧
    0 ∈ (UnivC3 1).belongs ∧ (1 : Nat) = 1 := by
  have hreach0 : KahnReach UnivC3 iterC3 := by
    have he : iterC3 = addNode UnivC3 (addNode UnivC3 kEmpty 1) 2 := rfl
    rw [he]
    exact KahnReach.add _ 2 (KahnReach.add _ 1 KahnReach.init)
  have hstep : nextK UnivC3 9 iterC3 =
      NextRes.yield 1 (stateOf UnivC3 9 iterC3) := by decide
  have hreach : KahnReach UnivC3 (stateOf UnivC3 9 iterC3) :=
    KahnReach.step iterC3 (stateOf UnivC3 9 iterC3) 9 1 hreach0 hstep
  exact ⟨by decide, by decide, by decide,
    exclusive_group_at_most_one UnivC3 (stateOf UnivC3 9 iterC3) hreach
      0 (by decide) 1 (by decide) 1 (by decide) (by decide) (by decide)⟩

/-! ## Engine lemmas: exit and init -/

theorem afind_aset_self (a : AListI) (k : Nat) (v : Option Nat) :
    afind (aset a k v) k = some v := by
  induction a with
  | nil => simp [aset, afind]
  | cons p rest ih =>
    obtain ⟨b, w⟩ := p
    by_cases hbk : b = k
    · subst hbk; simp [aset, afind]
    · simp [aset, afind, hbk, ih]

theorem afind_aset_ne (a : AListI) (k k' : Nat) (v : Option Nat)
    (h : k ≠ k') : afind (aset a k v) k' = afind a k' := by
  induction a with
  | nil => simp [aset, afind, h]
  | cons p rest ih =>
    obtain ⟨b, w⟩ := p
    by_cases hbk : b = k
    · subst hbk; simp [aset, afind, h, ih]
    · simp [aset, afind, hbk, ih]

theorem afind_adel_ne (a : AListI) (k k' : Nat) (h : k ≠ k') :
    afind (adel a k) k' = afind a k' := by
  induction a with
  | nil => simp [adel]
  | cons p rest ih =>
    obtain ⟨b, w⟩ := p
    by_cases hbk : b = k
    · subst hbk; simp [adel, afind, h]
    · simp [adel, afind, hbk, ih]

theorem exitAux_spec (U : Univ) (ep : Option Nat) :
    ∀ (rev : List Nat) (act : AListI),
      rev.Nodup →
      (∀ u ∈ rev, (afind act u).isSome = true) →
      (∀ u ∈ rev, (U u).teardownRaises = false) →
      ((exitAux U ep rev act).events =
        (rev.takeWhile (fun u => !decide (ep = some u))).filter
          (fun u => !(U u).isEmpty && ((afind act u).getD none).isSome) ∧
       ((exitAux U ep rev act).status = ExitStop.finished ∨
        (exitAux U ep rev act).status = ExitStop.hitEntry)) := by
  intro rev
  induction rev with
  | nil => intro act _ _ _; exact ⟨rfl, Or.inl rfl⟩
  | cons u rest ih =>
    intro act hnd hact hrs
    have hu := hact u (List.mem_cons_self u rest)
    obtain ⟨inst, hinst⟩ := Option.isSome_iff_exists.mp hu
    simp only [List.nodup_cons] at hnd
    have hcongr : ∀ v ∈ rest.takeWhile (fun w => !decide (ep = some w)),
        (!(U v).isEmpty && ((afind (adel act u) v).getD none).isSome) =
        (!(U v).isEmpty && ((afind act v).getD none).isSome) := by
      intro v hv
      have hvr : v ∈ rest := (List.takeWhile_sublist _).mem hv
      have hvu : u ≠ v := fun hh => hnd.1 (hh ▸ hvr)
      rw [afind_adel_ne act u v hvu]
    have hih : rest.Nodup ∧ (∀ v ∈ rest, (afind (adel act u) v).isSome = true) ∧
        (∀ v ∈ rest, (U v).teardownRaises = false) := by
      refine ⟨hnd.2, ?_, fun v hv => hrs v (List.mem_cons_of_mem u hv)⟩
      intro v hv
      have hvu : u ≠ v := fun hh => hnd.1 (hh ▸ hv)
      rw [afind_adel_ne act u v hvu]
      exact hact v (List.mem_cons_of_mem u hv)
    have hcons : exitAux U ep (u :: rest) act =
        (match afind act u with
         | none => ⟨rest, act, [], ExitStop.keyError⟩
         | some inst =>
           if ep = some u then ⟨rest, act, [], ExitStop.hitEntry⟩
           else if (U u).isEmpty || inst = none then
             exitAux U ep rest (adel act u)
           else if (U u).teardownRaises then ⟨rest, act, [], ExitStop.raised⟩
           else
             let r := exitAux U ep rest (adel act u)
             ⟨r.remaining, r.active, u :: r.events, r.status⟩) := rfl
    rw [hcons, hinst]
    dsimp only
    by_cases hep : ep = some u
    · rw [if_pos hep]
      refine ⟨?_, Or.inr rfl⟩
      simp [List.takeWhile_cons, hep]
    · rw [if_neg hep]
      have htw : ((u :: rest).takeWhile (fun v => !decide (ep = some v))) =
          u :: rest.takeWhile (fun v => !decide (ep = some v)) := by
        simp [List.takeWhile_cons, hep]
      by_cases hres : ((U u).isEmpty || decide (inst = none)) = true
      · rw [if_pos hres]
        obtain ⟨e1, e2⟩ := ih (adel act u) hih.1 hih.2.1 hih.2.2
        refine ⟨?_, e2⟩
        rw [e1, htw]
        have hpu : (!(U u).isEmpty && ((afind act u).getD none).isSome) = false := by
          rw [hinst]
          rcases Bool.or_eq_true_iff.mp hres with h1 | h1
          · simp [h1]
          · have hnone : inst = none := of_decide_eq_true h1
            simp [hnone]
        rw [List.filter_cons]
        simp only [hpu, Bool.false_eq_true, if_false]
        exact List.filter_congr hcongr
      · rw [if_neg hres]
        have hrrs : (U u).teardownRaises = false := hrs u (List.mem_cons_self u rest)
        rw [if_neg (by rw [hrrs]; simp)]
        dsimp only
        obtain ⟨e1, e2⟩ := ih (adel act u) hih.1 hih.2.1 hih.2.2
        refine ⟨?_, e2⟩
        show u :: (exitAux U ep rest (adel act u)).events = _
        rw [e1, htw]
        have hpu : (!(U u).isEmpty && ((afind act u).getD none).isSome) = true := by
          rw [hinst]
          rw [Bool.or_eq_true_iff] at hres
          push_neg at hres
          rcases hres with ⟨h1, h2⟩
          have hni : inst ≠ none := fun hh => h2 (by rw [hh]; simp)
          obtain ⟨iv, hiv⟩ := Option.ne_none_iff_exists'.mp hni
          simp only [Bool.not_eq_true] at h1
          simp [h1, hiv]
        rw [List.filter_cons]
        simp only [hpu, if_true]
        rw [List.filter_congr hcongr]


theorem exitC_spec (U : Univ) (s : CState)
    (hnd : s.ranUnits.Nodup)
    (hact : ∀ u ∈ s.ranUnits, (afind s.activeUnits u).isSome = true)
    (hrs : ∀ u ∈ s.ranUnits, (U u).teardownRaises = false) :
    (exitC U s).2.1 = expEvents U s.activeUnits s.entryPoint s.ranUnits ∧
    (exitC U s).2.1.Nodup ∧
    (∀ e, s.entryPoint = some e → e ∉ (exitC U s).2.1) ∧
    ((exitC U s).2.2 = ExitStop.finished ∨ (exitC U s).2.2 = ExitStop.hitEntry) := by
  obtain ⟨h1, h2⟩ := exitAux_spec U s.entryPoint s.ranUnits.reverse s.activeUnits
    (List.nodup_reverse.mpr hnd)
    (fun u hu => hact u (List.mem_reverse.mp hu))
    (fun u hu => hrs u (List.mem_reverse.mp hu))
  have hev : (exitC U s).2.1 =
      (exitAux U s.entryPoint s.ranUnits.reverse s.activeUnits).events := rfl
  have hst : (exitC U s).2.2 =
      (exitAux U s.entryPoint s.ranUnits.reverse s.activeUnits).status := rfl
  refine ⟨?_, ?_, ?_, ?_⟩
  · rw [hev, h1]
    rfl
  · rw [hev, h1]
    exact ((List.nodup_reverse.mpr hnd).sublist
      ((List.filter_sublist _).trans (List.takeWhile_sublist _)) : _)
  · intro e hep hmem
    rw [hev, h1] at hmem
    have hmem2 := (List.filter_sublist _).mem hmem
    have hmem3 := List.mem_takeWhile_imp hmem2
    rw [hep] at hmem3
    simp at hmem3
  · rw [hst]
    exact h2

/-- Claim C4: on a well-formed engine state (duplicate-free history,
an `active_units` entry for every ran unit, no teardown exceptions),
`exit()` resumes suspended instances in exactly the reverse of the order
units were appended to history, restricted to the units before the
`entry_point` watermark; the entry point itself is never resumed, every
resumed instance is resumed exactly once (the event list has no
duplicates and `active_units` entries are deleted as they are processed),
and the loop ends normally or at the watermark. -/
theorem exit_reverse_teardown (U : Univ) (s : CState)
    (hnd : s.ranUnits.Nodup)
    (hact : ∀ u ∈ s.ranUnits, (afind s.activeUnits u).isSome = true)
    (hrs : ∀ u ∈ s.ranUnits, (U u).teardownRaises = false) :
    (exitC U s).2.1 = expEvents U s.activeUnits s.entryPoint s.ranUnits ∧
    (exitC U s).2.1.Nodup ∧
    (∀ e, s.entryPoint = some e → e ∉ (exitC U s).2.1) ∧
    ((exitC U s).2.2 = ExitStop.finished ∨ (exitC U s).2.2 = ExitStop.hitEntry) :=
  exitC_spec U s hnd hact hrs

/-- Witness for the C4 theorem: three two-phase units ran in order
`1, 2, 3` with unit `1` as entry point; teardown resumes exactly `3`
then `2`. -/
theorem exit_reverse_teardown_w :
    ((exitC UnivC4 cstateC4).2.1 =
      expEvents UnivC4 cstateC4.activeUnits cstateC4.entryPoint cstateC4.ranUnits ∧
     (exitC UnivC4 cstateC4).2.1.Nodup ∧
     (∀ e, cstateC4.entryPoint = some e → e ∉ (exitC UnivC4 cstateC4).2.1) ∧
     ((exitC UnivC4 cstateC4).2.2 = ExitStop.finished ∨
      (exitC UnivC4 cstateC4).2.2 = ExitStop.hitEntry)) ∧
    (exitC UnivC4 cstateC4).2.1 = [3, 2] :=
  ⟨exit_reverse_teardown UnivC4 cstateC4 (by decide) (by decide) (by decide),
   by decide⟩

theorem initC_succ (U : Univ) (fuel : Nat) (s : CState) :
    initC U (fuel + 1) s =
      match nextK U (fuel + 1) s.iter with
      | NextRes.cycle => (s, InitOut.cycleErr)
      | NextRes.fuelOut => (s, InitOut.fuelOut)
      | NextRes.done => (s, InitOut.finished)
      | NextRes.yield u it =>
        let s1 := { s with iter := it }
        if u ∈ s1.blacklisted then
          initC U fuel { s1 with activeUnits := aset s1.activeUnits u none,
                                 ranUnits := s1.ranUnits ++ [u] }
        else if (U u).isEmpty then
          initC U fuel { s1 with activeUnits := aset s1.activeUnits u none,
                                 ranUnits := s1.ranUnits ++ [u] }
        else if (U u).setupStopInit then
          ({ s1 with func := none }, InitOut.stopped u)
        else
          let inst : Option Nat := if (U u).isGenerator then some u else none
          let s2 := { s1 with activeUnits := aset s1.activeUnits u inst,
                              ranUnits := s1.ranUnits ++ [u] }
          match (U u).setupResult with
          | some r => (s2, InitOut.tookOver r)
          | none => initC U fuel s2 := rfl

theorem initC_stopped (U : Univ) :
    ∀ (fuel : Nat) (s s' : CState) (u : Nat),
      initC U fuel s = (s', InitOut.stopped u) →
      (s'.func = none ∧
       s'.blacklisted = s.blacklisted ∧
       s'.entryPoint = s.entryPoint ∧
       (U u).setupStopInit = true ∧ (U u).isEmpty = false ∧
       u ∉ s'.blacklisted ∧
       (∃ pre, s'.ranUnits = s.ranUnits ++ pre ∧ u ∉ pre) ∧
       ((∀ v ∈ s.ranUnits, (afind s.activeUnits v).isSome = true) →
        ∀ v ∈ s'.ranUnits, (afind s'.activeUnits v).isSome = true)) := by
  intro fuel
  induction fuel with
  | zero =>
    intro s s' u h
    simp [initC] at h
  | succ fuel ih =>
    intro s s' u h
    rw [initC_succ] at h
    cases hnx : nextK U (fuel + 1) s.iter with
    | cycle => rw [hnx] at h; simp at h
    | fuelOut => rw [hnx] at h; simp at h
    | done => rw [hnx] at h; simp at h
    | yield v it =>
      rw [hnx] at h
      dsimp only at h
      by_cases hbl : v ∈ s.blacklisted
      · rw [if_pos hbl] at h
        obtain ⟨c1, c2, c3, c4, c5, c6, ⟨pre, hpre, hupre⟩, c8⟩ := ih _ s' u h
        have c2' : s'.blacklisted = s.blacklisted := c2
        have c3' : s'.entryPoint = s.entryPoint := c3
        have hpre' : s'.ranUnits = s.ranUnits ++ (v :: pre) := by
          rw [hpre]
          simp
        refine ⟨c1, c2', c3', c4, c5, c6, ⟨v :: pre, hpre', ?_⟩, ?_⟩
        · intro hc
          rcases List.mem_cons.mp hc with hc' | hc'
          · have c6' : u ∉ s.blacklisted := by rw [c2'] at c6; exact c6
            exact c6' (hc' ▸ hbl)
          · exact hupre hc'
        · intro hact v' hv'
          refine c8 ?_ v' hv'
          intro w hw
          rcases List.mem_append.mp hw with hw' | hw'
          · by_cases hwv : w = v
            · rw [hwv, afind_aset_self]
              rfl
            · rw [afind_aset_ne _ v w _ (fun hh => hwv hh.symm)]
              exact hact w hw'
          · have hwv : w = v := by simpa using hw'
            rw [hwv, afind_aset_self]
            rfl
      · rw [if_neg hbl] at h
        by_cases hemp : (U v).isEmpty = true
        · rw [if_pos hemp] at h
          obtain ⟨c1, c2, c3, c4, c5, c6, ⟨pre, hpre, hupre⟩, c8⟩ := ih _ s' u h
          have c2' : s'.blacklisted = s.blacklisted := c2
          have c3' : s'.entryPoint = s.entryPoint := c3
          have hpre' : s'.ranUnits = s.ranUnits ++ (v :: pre) := by
            rw [hpre]
            simp
          refine ⟨c1, c2', c3', c4, c5, c6, ⟨v :: pre, hpre', ?_⟩, ?_⟩
          · intro hc
            rcases List.mem_cons.mp hc with hc' | hc'
            · rw [hc'] at c5
              rw [c5] at hemp
              cases hemp
            · exact hupre hc'
          · intro hact v' hv'
            refine c8 ?_ v' hv'
            intro w hw
            rcases List.mem_append.mp hw with hw' | hw'
            · by_cases hwv : w = v
              · rw [hwv, afind_aset_self]
                rfl
              · rw [afind_aset_ne _ v w _ (fun hh => hwv hh.symm)]
                exact hact w hw'
            · have hwv : w = v := by simpa using hw'
              rw [hwv, afind_aset_self]
              rfl
        · rw [if_neg hemp] at h
          by_cases hsi : (U v).setupStopInit = true
          · rw [if_pos hsi] at h
            injection h with h1 h2
            injection h2 with h2
            rw [← h1, ← h2]
            refine ⟨rfl, rfl, rfl, hsi, ?_, hbl, ⟨[], by simp, by simp⟩, ?_⟩
            · simpa using hemp
            · intro hact w hw
              exact hact w hw
          · rw [if_neg hsi] at h
            cases hsr : (U v).setupResult with
            | some r => rw [hsr] at h; simp at h
            | none =>
              rw [hsr] at h
              obtain ⟨c1, c2, c3, c4, c5, c6, ⟨pre, hpre, hupre⟩, c8⟩ := ih _ s' u h
              have c2' : s'.blacklisted = s.blacklisted := c2
              have c3' : s'.entryPoint = s.entryPoint := c3
              have hpre' : s'.ranUnits = s.ranUnits ++ (v :: pre) := by
                rw [hpre]
                simp
              refine ⟨c1, c2', c3', c4, c5, c6, ⟨v :: pre, hpre', ?_⟩, ?_⟩
              · intro hc
                rcases List.mem_cons.mp hc with hc' | hc'
                · rw [hc'] at c4
                  exact hsi c4
                · exact hupre hc'
              · intro hact v' hv'
                refine c8 ?_ v' hv'
                intro w hw
                rcases List.mem_append.mp hw with hw' | hw'
                · by_cases hwv : w = v
                  · rw [hwv, afind_aset_self]
                    rfl
                  · rw [afind_aset_ne _ v w _ (fun hh => hwv hh.symm)]
                    exact hact w hw'
                · have hwv : w = v := by simpa using hw'
                  rw [hwv, afind_aset_self]
                  rfl

/-- Claim C7: if a unit's setup raises `StopInitException` during
`init()`, the run returns at once with the engine's final action cleared
(`func = None`), the raising unit is not appended to history while every
unit run before it remains (history is the old history plus the units of
this pass, without the raising unit), the blacklist and entry point are
untouched, and a subsequent `exit()` on the resulting state (well-formed:
duplicate-free history, no teardown exceptions) tears the recorded units
down in reverse order up to the watermark.  The final action is never
invoked: the outcome is `stopped`, not a takeover, and `func` is `None`. -/
theorem stopinit_clears_func_and_keeps_history (U : Univ) (fuel : Nat)
    (s s' : CState) (u : Nat)
    (h : initC U fuel s = (s', InitOut.stopped u))
    (hact : ∀ v ∈ s.ranUnits, (afind s.activeUnits v).isSome = true) :
    s'.func = none ∧
    (∃ pre, s'.ranUnits = s.ranUnits ++ pre ∧ u ∉ pre) ∧
    (s'.ranUnits.Nodup → (∀ v ∈ s'.ranUnits, (U v).teardownRaises = false) →
      ((exitC U s').2.1 = expEvents U s'.activeUnits s'.entryPoint s'.ranUnits ∧
       ((exitC U s').2.2 = ExitStop.finished ∨
        (exitC U s').2.2 = ExitStop.hitEntry))) := by
  obtain ⟨c1, _, _, _, _, _, hpre, c8⟩ := initC_stopped U fuel s s' u h
  refine ⟨c1, hpre, ?_⟩
  intro hnd hrs
  obtain ⟨e1, _, _, e4⟩ := exitC_spec U s' hnd (c8 hact) hrs
  exact ⟨e1, e4⟩

/-- Witness for the C7 theorem on spec scenario 6: two-phase unit `1`
runs, then unit `2` (positioned before units `3` and `4`) raises
`StopInitException`; `init` stops with no final action and `exit` tears
down unit `1`. -/
theorem stopinit_clears_func_and_keeps_history_w :
    (initC UnivC7 20 cstateC7).1.func = none ∧
    (∃ pre, (initC UnivC7 20 cstateC7).1.ranUnits = cstateC7.ranUnits ++ pre ∧
      2 ∉ pre) ∧
    ((initC UnivC7 20 cstateC7).1.ranUnits.Nodup →
     (∀ v ∈ (initC UnivC7 20 cstateC7).1.ranUnits,
        (UnivC7 v).teardownRaises = false) →
     ((exitC UnivC7 (initC UnivC7 20 cstateC7).1).2.1 =
        expEvents UnivC7 (initC UnivC7 20 cstateC7).1.activeUnits
          (initC UnivC7 20 cstateC7).1.entryPoint
          (initC UnivC7 20 cstateC7).1.ranUnits ∧
      ((exitC UnivC7 (initC UnivC7 20 cstateC7).1).2.2 = ExitStop.finished ∨
       (exitC UnivC7 (initC UnivC7 20 cstateC7).1).2.2 = ExitStop.hitEntry))) :=
  stopinit_clears_func_and_keeps_history UnivC7 20 cstateC7
    (initC UnivC7 20 cstateC7).1 2 (by decide) (by decide)
